import Mathlib

/-!
A shallow embedding of the Auto-Completion-Systems prefix trees
(`ACS_prefix_tree.py`): the `SimplePrefixTree` class and its operations
`__len__`, `insert`, `autocomplete`, `remove`, together with the helper
methods `is_empty`, `is_leaf`, `get_subtree_roots`, `get_leaf_value`,
`get_leaves`, `create_node`.

Modelling conventions:
* A Python tree object is the inductive `SPT`: a `root` field, a `weight`
  field and a `subtrees` list, exactly as in the class.
* The Python `root` attribute holds either a list of symbols (empty tree /
  internal node) or an inserted value (leaf); this is the sum `PRoot`.
  Python `==` between a list and a non-list value is `False`, which the
  two-constructor sum reproduces.
* Python floats are modelled as rationals (`ℚ`); all weights appearing in
  the repository's scenarios are exactly representable.
* Mutating methods become pure functions returning the updated tree;
  `autocomplete` returns (result list, tree after the call) so that its
  absence of mutation is a provable statement rather than a convention.
* `list.sort(key=weight, reverse=True)` is a stable descending sort; any
  stable sort with the same key computes the same list, so it is embedded
  as a stable insertion sort `sortKey`.
-/

namespace ACS

/-- The `root` attribute of a tree node: either a list of symbols
(empty tree or internal prefix node) or an inserted value (leaf). -/
inductive PRoot (α σ : Type) where
  | pre (p : List σ)
  | val (v : α)
deriving DecidableEq, Repr

/-- `SimplePrefixTree`: a root, a weight and a list of subtrees. -/
inductive SPT (α σ : Type) where
  | mk (root : PRoot α σ) (weight : ℚ) (subtrees : List (SPT α σ))

namespace SPT

variable {α σ : Type}

/-- The `root` attribute. -/
def root : SPT α σ → PRoot α σ
  | .mk r _ _ => r

/-- The `weight` attribute. -/
def weight : SPT α σ → ℚ
  | .mk _ w _ => w

/-- The `subtrees` attribute. -/
def subtrees : SPT α σ → List (SPT α σ)
  | .mk _ _ ts => ts

/-- `SimplePrefixTree.__init__`: the empty tree. -/
def empty : SPT α σ := .mk (.pre []) 0 []

/-- `is_empty`: `self.weight == 0.0`. -/
def is_empty (t : SPT α σ) : Bool := t.weight == 0

/-- `is_leaf`: `self.subtrees == [] and self.weight > 0.0`. -/
def is_leaf (t : SPT α σ) : Bool := t.subtrees.isEmpty && decide (0 < t.weight)

mutual

/-- `__len__`: number of leaf values stored in the tree (`sizeList` is
the accumulating `for` loop over the subtrees). -/
def size : SPT α σ → Nat
  | .mk r w ts =>
    if is_empty (.mk r w ts) then 0
    else if is_leaf (.mk r w ts) then 1
    else sizeList ts

/-- The `for subtree in self.subtrees` loop of `__len__`. -/
def sizeList : List (SPT α σ) → Nat
  | [] => 0
  | c :: cs => size c + sizeList cs

end

mutual

/-- `get_leaf_value`: the list of all leaf roots (inserted values) in the
tree, in subtree order. -/
def get_leaf_value : SPT α σ → List (PRoot α σ)
  | .mk r w ts =>
    if is_empty (.mk r w ts) then []
    else if is_leaf (.mk r w ts) then [r]
    else get_leaf_valueList ts

/-- The `for subtree in self.subtrees` loop of `get_leaf_value`. -/
def get_leaf_valueList : List (SPT α σ) → List (PRoot α σ)
  | [] => []
  | c :: cs => get_leaf_value c ++ get_leaf_valueList cs

end

mutual

/-- `get_leaves`: the list of all leaf nodes in the tree, in subtree
(depth-first pre-order) order. -/
def get_leaves : SPT α σ → List (SPT α σ)
  | .mk r w ts =>
    if is_empty (.mk r w ts) then []
    else if is_leaf (.mk r w ts) then [.mk r w ts]
    else get_leavesList ts

/-- The `for subtree in self.subtrees` loop of `get_leaves`. -/
def get_leavesList : List (SPT α σ) → List (SPT α σ)
  | [] => []
  | c :: cs => get_leaves c ++ get_leavesList cs

end

/-- `get_subtree_roots`: the list of the roots of the given subtrees. -/
def get_subtree_roots (ts : List (SPT α σ)) : List (PRoot α σ) :=
  ts.map root

end SPT

/-- Stable insertion (for `sortKey`): `x` is placed before the first
element whose key is not larger, so that among equal keys earlier input
elements stay first — exactly the order of Python's stable
`sort(key=…, reverse=True)`. -/
def insKey {β : Type} (key : β → ℚ) (x : β) : List β → List β
  | [] => [x]
  | y :: ys => if key x < key y then y :: insKey key x ys else x :: y :: ys

/-- Stable sort by non-increasing key, the embedding of Python's
`list.sort(key=…, reverse=True)` (any stable sort with the same key
yields the same list). -/
def sortKey {β : Type} (key : β → ℚ) (l : List β) : List β :=
  l.foldr (insKey key) []

namespace SPT

variable {α σ : Type} [DecidableEq α] [DecidableEq σ]

/-- The symbol list held by a `root` attribute; `[]` for a leaf root
(where Python list concatenation would raise `TypeError`; `create_node`
is never reached with a leaf `self` when `insert`'s preconditions hold). -/
def rootList : PRoot α σ → List σ
  | .pre p => p
  | .val _ => []

/-- `create_node`: a fresh node whose root is `self.root + value` and
whose weight is the given weight. -/
def create_node (t : SPT α σ) (value : List σ) (w : ℚ) : SPT α σ :=
  .mk (.pre (rootList t.root ++ value)) w []

/-- Updating the first list element satisfying `q` (the embedding of
`index = roots.index(...)`; `self.subtrees[index].insert(...)`). -/
def updateFirst {β : Type} (q : β → Bool) (f : β → β) : List β → List β
  | [] => []
  | c :: cs => if q c then f c :: cs else c :: updateFirst q f cs

/-- The final `self.subtrees.sort(key=lambda s: s.weight, reverse=True)`
of `insert`; it runs in every branch. -/
def sortTop (t : SPT α σ) : SPT α σ := .mk t.root t.weight (sortKey weight t.subtrees)

/-- `SimplePrefixTree.insert`. The duplicate-value branch adds `weight`
to `self.weight` once per matching subtree, as the Python loop does. -/
def insert : SPT α σ → α → ℚ → List σ → SPT α σ
  | t, v, w, [] =>
    if t.subtrees.isEmpty then
      sortTop (.mk t.root w [.mk (.val v) w []])
    else if (.val v : PRoot α σ) ∉ get_leaf_value t then
      sortTop (.mk t.root (t.weight + w) (t.subtrees ++ [.mk (.val v) w []]))
    else
      sortTop (.mk t.root
        (t.weight + (t.subtrees.countP fun c => decide (c.root = .val v)) * w)
        (t.subtrees.map fun c =>
          if c.root = .val v then .mk c.root (c.weight + w) c.subtrees else c))
  | t, v, w, s :: rest =>
    if (create_node t [s] w).root ∈ get_subtree_roots t.subtrees then
      sortTop (.mk t.root (t.weight + w)
        (updateFirst (fun c => c.root == (create_node t [s] w).root)
          (fun c => insert c v w rest) t.subtrees))
    else if (t.subtrees ++ [create_node t [s] w]).length ≤ 1 then
      sortTop (.mk t.root w (t.subtrees ++ [insert (create_node t [s] w) v w rest]))
    else
      sortTop (.mk t.root (t.weight + w)
        (t.subtrees ++ [insert (create_node t [s] w) v w rest]))
termination_by structural _ _ _ p => p

mutual

/-- `SimplePrefixTree.autocomplete`, in state-passing form: the first
component is the returned list of `(leaf.root, leaf.weight)` pairs, the
second is `self` after the call (the method performs no mutation, which
becomes a theorem about this definition rather than a convention). -/
def autocompleteM : SPT α σ → List σ → Option Nat → List (PRoot α σ × ℚ) × SPT α σ
  | .mk r w ts, p, none =>
    if r = .pre p then
      (sortKey Prod.snd ((get_leaves (.mk r w ts)).map fun l => (l.root, l.weight)),
        .mk r w ts)
    else
      let rs := autocompleteList ts p none
      (rs.1, .mk r w rs.2)
  | .mk r w ts, p, some k =>
    if r = .pre p then
      (((get_leaves (.mk r w ts)).map fun l => (l.root, l.weight)).take k, .mk r w ts)
    else
      let rs := autocompleteList ts p (some k)
      (rs.1, .mk r w rs.2)

/-- The `for subtree in self.subtrees: lst.extend(...)` loop of
`autocomplete`; the second component rebuilds the subtree list after the
recursive calls. -/
def autocompleteList :
    List (SPT α σ) → List σ → Option Nat → List (PRoot α σ × ℚ) × List (SPT α σ)
  | [], _, _ => ([], [])
  | c :: cs, p, l =>
    let r := autocompleteM c p l
    let rest := autocompleteList cs p l
    (r.1 ++ rest.1, r.2 :: rest.2)

end

mutual

/-- `SimplePrefixTree.remove`. An empty argument list, or a root equal to
the argument, resets the node to the empty tree; otherwise the body loop
(`removeLoop`) runs over the subtrees. -/
def remove : SPT α σ → List σ → SPT α σ
  | _, [] => .mk (.pre []) 0 []
  | .mk r w ts, p =>
    if r = .pre p then .mk (.pre []) 0 []
    else
      let res := removeLoop p ts w
      .mk r res.2 res.1

/-- The body loop of `remove`: Python iterates over `self.subtrees` while
calling `self.subtrees.remove(subtree)` inside the loop, so after an
element is dropped the iterator skips the following element (it stays in
the list but its own `remove` is not called on it). Returns the new
subtree list and the new `self.weight`, which is decremented (by the
child's pre-call weight) only when that child became empty. -/
def removeLoop (p : List σ) : List (SPT α σ) → ℚ → List (SPT α σ) × ℚ
  | [], w => ([], w)
  | x :: xs, w =>
    if is_empty (remove x p) then
      match xs with
      | [] => ([], w - x.weight)
      | y :: ys =>
        (y :: (removeLoop p ys (w - x.weight)).1, (removeLoop p ys (w - x.weight)).2)
    else
      (remove x p :: (removeLoop p xs w).1, (removeLoop p xs w).2)

end

end SPT

/-- The spec's `InvalidWeight` error (§7). -/
inductive ACSError where
  | invalidWeight
deriving DecidableEq, Repr

/-- `insert` as called through the `@check_contracts` decorator: `python_ta`
enforces the docstring precondition `weight > 0` before the method body is
entered, surfacing the typed failure the spec names `InvalidWeight`; the
tree is untouched in that case. -/
def SPT.insertChecked {α σ : Type} [DecidableEq α] [DecidableEq σ]
    (t : SPT α σ) (v : α) (w : ℚ) (p : List σ) : Option ACSError × SPT α σ :=
  if 0 < w then (none, t.insert v w p) else (some .invalidWeight, t)

namespace SPT

variable {α σ : Type} [DecidableEq α] [DecidableEq σ]

mutual

/-- Specification-side view of the stored corpus: the list of
`(prefix sequence, leaf root, leaf weight)` triples of a tree, in
depth-first subtree order.  The prefix sequence of a leaf is the symbol
list of its parent's root, which in `SimplePrefixTree` is the full path
from the tree root. -/
def entries : SPT α σ → List (List σ × PRoot α σ × ℚ)
  | .mk r _ ts => entriesList (rootList r) ts

/-- Child-list part of `entries`: a childless child is recorded as a leaf
at the parent's path, any other child contributes its own entries. -/
def entriesList (r : List σ) : List (SPT α σ) → List (List σ × PRoot α σ × ℚ)
  | [] => []
  | c :: cs =>
    (if c.subtrees.isEmpty then [(r, c.root, c.weight)] else entries c) ++
      entriesList r cs

end

mutual

/-- Specification-side locator of the `autocomplete`/`remove` match: the
first node in depth-first pre-order whose root equals `.pre p`. -/
def findNode (p : List σ) : SPT α σ → Option (SPT α σ)
  | .mk r w ts => if r = .pre p then some (.mk r w ts) else findNodeList p ts

/-- Child-list part of `findNode`. -/
def findNodeList (p : List σ) : List (SPT α σ) → Option (SPT α σ)
  | [] => none
  | c :: cs =>
    match findNode p c with
    | some n => some n
    | none => findNodeList p cs

end

/-- Pairwise distinctness of a list of roots. -/
def distinctRoots : List (PRoot α σ) → Bool
  | [] => true
  | x :: xs => !xs.contains x && distinctRoots xs

mutual

/-- The class docstring's representation invariants for a subtree whose
parent sits at absolute path `r`: a leaf child is childless with a value
root and positive weight; an internal child has a prefix root extending
`r` by exactly one symbol, positive weight, a non-empty child list with
pairwise distinct roots, and well-formed children of its own.  (The
weight-sum and sortedness invariants are deliberately not included: C1
and C5 show the code does not maintain them.  The code does not maintain
even these structural clauses: `remove` can leave a childless
positive-weight internal node behind, see `phantomTree`, so `wfChild`
documents the docstring, not the reachable states; the invariant the
code actually preserves is `reachChild`.) -/
def wfChild : List σ → SPT α σ → Bool
  | _, .mk (.val _) w ts => ts.isEmpty && decide (0 < w)
  | r, .mk (.pre q) w ts =>
    !q.isEmpty && q.dropLast == r && decide (0 < w) && !ts.isEmpty &&
      distinctRoots (ts.map root) && wfChildren q ts

/-- `wfChild` over a child list. -/
def wfChildren : List σ → List (SPT α σ) → Bool
  | _, [] => true
  | r, c :: cs => wfChild r c && wfChildren r cs

end

/-- Whole-tree well-formedness in the docstring's sense: the tree is the
literal empty tree, or an internal root at path `[]` with positive
weight and well-formed children.  Not an invariant of the program (see
`wfChild` and `phantomTree`); the maintained counterpart is
`reachInv`. -/
def wf : SPT α σ → Bool
  | .mk rt w ts =>
    (rt == .pre [] && w == 0 && ts.isEmpty) ||
      (rt == .pre [] && decide (0 < w) && !ts.isEmpty &&
        distinctRoots (ts.map root) && wfChildren [] ts)

/-- The `(value root, weight)` pairs of all stored leaves whose prefix
sequence begins with `p` — the specification-side reading of "every leaf
matching the prefix". -/
def matchPairs (p : List σ) (t : SPT α σ) : List (PRoot α σ × ℚ) :=
  ((entries t).filter fun e => decide (p <+: e.1)).map fun e => (e.2.1, e.2.2)

/-- Total weight of the leaves of `t` holding the value `v`. -/
def leafWeight (v : α) (t : SPT α σ) : ℚ :=
  (((get_leaves t).filter fun l => l.root == .val v).map weight).sum

/-- The value `v` is stored somewhere below `t` under the remaining
prefix sequence `p`: following `p` one symbol per level (the way `insert`
extends roots) ends at a node with a leaf child holding `v`. -/
inductive StoredAt : SPT α σ → List σ → α → Prop where
  | here (t : SPT α σ) (v : α) (c : SPT α σ) (hc : c ∈ t.subtrees)
      (hr : c.root = .val v) : StoredAt t [] v
  | there (t : SPT α σ) (s : σ) (rest : List σ) (v : α) (c : SPT α σ)
      (hc : c ∈ t.subtrees) (hr : c.root = .pre (rootList t.root ++ [s]))
      (hs : StoredAt c rest v) : StoredAt t (s :: rest) v

/-- The trees reachable from the empty `SimplePrefixTree` by method
calls: `insert` with its docstring precondition `weight > 0`, and
`remove` (which has no precondition).  The docstring's further `insert`
precondition (a value may be re-inserted only with its original prefix
sequence) is deliberately not required here, so `Reach` is a superset of
the program's reachable states and universal theorems over it are
stronger; the concrete call sequences used below satisfy the full
preconditions. -/
inductive Reach : SPT α σ → Prop where
  | empty : Reach SPT.empty
  | ins (t : SPT α σ) (v : α) (w : ℚ) (p : List σ) (h : Reach t)
      (hw : 0 < w) : Reach (t.insert v w p)
  | rem (t : SPT α σ) (p : List σ) (h : Reach t) : Reach (t.remove p)

mutual

/-- The structural invariant that `insert` and `remove` actually
maintain for a subtree whose parent sits at absolute path `r`: a value
leaf is childless with positive weight; an internal child extends `r` by
exactly one symbol, has positive weight at least the sum of its
children's weights, and pairwise distinct child roots.  Unlike the
docstring invariant `wfChild`, an internal node MAY be childless
(`remove` leaves such remnants behind, see `phantomTree`) and its weight
may exceed its children's sum. -/
def reachChild : List σ → SPT α σ → Bool
  | _, .mk (.val _) w ts => ts.isEmpty && decide (0 < w)
  | r, .mk (.pre q) w ts =>
    !q.isEmpty && q.dropLast == r && decide (0 < w) &&
      decide ((ts.map weight).sum ≤ w) && distinctRoots (ts.map root) &&
      reachChildren q ts

/-- `reachChild` over a child list. -/
def reachChildren : List σ → List (SPT α σ) → Bool
  | _, [] => true
  | r, c :: cs => reachChild r c && reachChildren r cs

end

/-- The maintained invariant at the root: the root path is empty, the
weight is at least the children's sum (so it is positive whenever a
child exists), the child roots are pairwise distinct, and every child
satisfies `reachChild`. -/
def reachInv : SPT α σ → Bool
  | .mk rt w ts =>
    rt == .pre [] && decide ((ts.map weight).sum ≤ w) &&
      distinctRoots (ts.map root) && reachChildren [] ts

end SPT

/-
`Rat.add`, `Rat.sub` and `Rat.mul` are `@[irreducible]` in core, which
blocks elaborator-side evaluation of concrete trees (the kernel reduces
them regardless); unsealing restores `decide`/`rfl` on closed scenarios.
-/
unseal Rat.add Rat.sub Rat.mul Rat.inv

section ConcreteTrees

/-- The tree of the spec's Scenario A/B/C insertion order:
`insert('cat', 2.0, [c,a,t])`, `insert('car', 3.0, [c,a,r])`,
`insert('dog', 4.0, [d,o,g])` into an empty `SimplePrefixTree`. -/
def treeC : SPT String Char :=
  (((SPT.empty : SPT String Char).insert "cat" 2 ['c', 'a', 't']).insert
      "car" 3 ['c', 'a', 'r']).insert "dog" 4 ['d', 'o', 'g']

/-- The tree of C3's insertion order: `insert('dog', 4.0, [d,o,g])`,
`insert('cat', 2.0, [c,a,t])`, `insert('car', 3.0, [c,a,r])` into an
empty `SimplePrefixTree`. -/
def treeB : SPT String Char :=
  (((SPT.empty : SPT String Char).insert "dog" 4 ['d', 'o', 'g']).insert
      "cat" 2 ['c', 'a', 't']).insert "car" 3 ['c', 'a', 'r']

/-- Scenario C: `treeC` after `remove(['c','a'])`. -/
def treeCRemoved : SPT String Char := treeC.remove ['c', 'a']

/-- A reachable tree on which `remove` corrupts the weight bookkeeping:
`insert('cat', 2.0, [c,a,t])`, `insert('cb', 3.0, [c,b])`,
`insert('dog', 4.0, [d,o,g])` into an empty tree (all preconditions
hold), then `remove(['c','a'])`.  The child `['c']` loses the `['c','a']`
branch but does not become empty, and `remove` adjusts an ancestor's
weight only when a child became empty. -/
def bugTree : SPT String Char :=
  ((((SPT.empty : SPT String Char).insert "cat" 2 ['c', 'a', 't']).insert
      "cb" 3 ['c', 'b']).insert "dog" 4 ['d', 'o', 'g']).remove ['c', 'a']

/-- Scenario D, first insertion: `insert('star', 15.0, [a,s])` into an
empty `SimplePrefixTree` (the sample data's sentence, abbreviated). -/
def treeD1 : SPT String Char :=
  (SPT.empty : SPT String Char).insert "star" 15 ['a', 's']

/-- Scenario D: the same value inserted again with the identical prefix
sequence and weight `6.5`. -/
def treeD : SPT String Char := treeD1.insert "star" (13 / 2) ['a', 's']

/-- A reachable tree that stores no value at all yet keeps a positive-
weight childless internal remnant: `insert('cat',2,[c,a,t])`,
`insert('car',3,[c,a,r])`, `insert('cb',4,[c,b])`, then
`remove(['c','a','t'])`, `remove(['c','a'])`, `remove(['c','b'])` (all
preconditions hold: positive weights, three distinct fresh values).  The
result is a root of weight `9` whose only child is `(.pre ['c'], 2)`
with no subtrees — a "phantom leaf" that `is_leaf` classifies as a leaf
although it holds no value. -/
def phantomTree : SPT String Char :=
  (((((SPT.empty : SPT String Char).insert "cat" 2 ['c', 'a', 't']).insert
      "car" 3 ['c', 'a', 'r']).insert "cb" 4 ['c', 'b']).remove
      ['c', 'a', 't']).remove ['c', 'a'] |>.remove ['c', 'b']

end ConcreteTrees

open SPT

section CompressedTree

/-- Modelled from the spec: the node model of the compressed engine
(`CompressedPrefixTree` is an unimplemented stub in the source, so these
definitions transcribe spec sections 2, 4 and 9).  A node is a value
leaf with a weight, or an internal node holding a multi-symbol prefix
fragment, a weight and a child list. -/
inductive CNode (α σ : Type) where
  | leaf (v : α) (w : ℚ)
  | node (frag : List σ) (w : ℚ) (children : List (CNode α σ))

namespace CNode

variable {α σ : Type} [DecidableEq α] [DecidableEq σ]

/-- Modelled from the spec: a node's weight. -/
def cweight : CNode α σ → ℚ
  | .leaf _ w => w
  | .node _ w _ => w

/-- Modelled from the spec: the total weight of a child list (invariant
1: an internal node's weight is recomputed as the sum of its children's
weights). -/
def csum (cs : List (CNode α σ)) : ℚ := (cs.map cweight).sum

/-- Modelled from the spec: the longest common leading run of two symbol
sequences (the fragment comparison of the compressed insertion). -/
def lcp : List σ → List σ → List σ
  | a :: as, b :: bs => if a = b then a :: lcp as bs else []
  | _, _ => []

/-- Modelled from the spec: rebuilding an internal node after a
mutation — recompute the weight as the sum of the children's weights and
re-sort the children by non-increasing weight (stable). -/
def recompute (f : List σ) (cs : List (CNode α σ)) : CNode α σ :=
  .node f (csum cs) (sortKey cweight cs)

/-- Modelled from the spec: is there a leaf child holding this value? -/
def hasLeafV (v : α) : List (CNode α σ) → Bool
  | [] => false
  | .leaf v0 _ :: cs => v0 == v || hasLeafV v cs
  | .node _ _ _ :: cs => hasLeafV v cs

/-- Modelled from the spec: the empty-prefix step of insertion — add the
weight to the leaf holding the value if one exists, otherwise create a
new leaf child. -/
def insLeaf (v : α) (w : ℚ) (cs : List (CNode α σ)) : List (CNode α σ) :=
  if hasLeafV v cs then
    cs.map fun c => match c with
      | .leaf v0 w0 => if v0 = v then .leaf v0 (w0 + w) else .leaf v0 w0
      | .node f1 w1 cs1 => .node f1 w1 cs1
  else cs ++ [.leaf v w]

/-- Modelled from the spec: case (b) of compressed insertion — the
common run is shorter than the child's fragment, so the child is split:
a new internal node owns the common run, the old child is re-parented
under it with its fragment truncated, and the new value's remaining
suffix becomes a sibling branch (a fresh internal child, or directly a
leaf if the suffix is empty). -/
def splitNode (v : α) (w : ℚ) (p f1 : List σ) (w1 : ℚ)
    (cs1 : List (CNode α σ)) : CNode α σ :=
  if p.drop (lcp p f1).length = [] then
    recompute (lcp p f1) [.node (f1.drop (lcp p f1).length) w1 cs1, .leaf v w]
  else
    recompute (lcp p f1)
      [.node (f1.drop (lcp p f1).length) w1 cs1,
        .node (p.drop (lcp p f1).length) w [.leaf v w]]

mutual

/-- Modelled from the spec: compressed insertion (spec section 9,
"Insertion algorithm (compressed)").  With an empty remaining prefix the
value leaf is added or bumped among the children; otherwise the children
are searched for the unique child sharing a leading run. -/
def cinsert : CNode α σ → α → ℚ → List σ → CNode α σ
  | .leaf v0 w0, _, _, _ => .leaf v0 w0
  | .node f _ cs, v, w, [] => recompute f (insLeaf v w cs)
  | .node f _ cs, v, w, s :: rest => recompute f (cinsChildren v w (s :: rest) cs)

/-- Modelled from the spec: the child scan of compressed insertion.
Case (a): the remaining prefix consumes the child's fragment — recurse
into it.  Case (b): partial overlap — split the child.  Case (c): no
child shares a leading symbol — create one new child owning the entire
remaining prefix with the value leaf beneath it. -/
def cinsChildren : α → ℚ → List σ → List (CNode α σ) → List (CNode α σ)
  | v, w, p, [] => [.node p w [.leaf v w]]
  | v, w, p, .leaf v0 w0 :: cs => .leaf v0 w0 :: cinsChildren v w p cs
  | v, w, p, .node f1 w1 cs1 :: cs =>
    if lcp p f1 = [] then .node f1 w1 cs1 :: cinsChildren v w p cs
    else if f1 <+: p then cinsert (.node f1 w1 cs1) v w (p.drop f1.length) :: cs
    else splitNode v w p f1 w1 cs1 :: cs

end

/-- Modelled from the spec: the merge-on-single-child repair of
compressed removal — a node whose children all vanished is dropped, a
node left with exactly one internal child is merged with it (fragments
concatenated, the child's weight and children adopted), and any other
node is rebuilt with its weight recomputed. -/
def mergeFix (f1 : List σ) : List (CNode α σ) → List (CNode α σ)
  | [] => []
  | [.node f2 w2 cs2] => [.node (f1 ++ f2) w2 cs2]
  | [.leaf v0 w0] => [.node f1 (csum [(CNode.leaf v0 w0 : CNode α σ)]) [.leaf v0 w0]]
  | c1 :: c2 :: cs => [.node f1 (csum (c1 :: c2 :: cs)) (c1 :: c2 :: cs)]

mutual

/-- Modelled from the spec: compressed removal below one child, given
the remaining prefix (non-empty at every call).  A child whose fragment
extends the remaining prefix is the removed subtree and is dropped; a
child whose fragment is a proper start of the remaining prefix is
recursed into and repaired with `mergeFix`; any other child is
untouched. -/
def cremN : CNode α σ → List σ → List (CNode α σ)
  | .leaf v0 w0, _ => [.leaf v0 w0]
  | .node f1 w1 cs1, p =>
    if p <+: f1 then []
    else if f1 <+: p then mergeFix f1 (cremChildren cs1 (p.drop f1.length))
    else [.node f1 w1 cs1]

/-- Modelled from the spec: compressed removal over a child list. -/
def cremChildren : List (CNode α σ) → List σ → List (CNode α σ)
  | [], _ => []
  | c :: cs, p => cremN c p ++ cremChildren cs p

end

/-- Modelled from the spec: compressed removal at the root.  An empty
prefix clears the whole tree; otherwise the children are updated and the
root's weight is recomputed (the root itself is never merged). -/
def cremoveT : CNode α σ → List σ → CNode α σ
  | .leaf v0 w0, _ => .leaf v0 w0
  | .node _ _ _, [] => .node [] 0 []
  | .node f _ cs, s :: rest =>
    .node f (csum (cremChildren cs (s :: rest))) (cremChildren cs (s :: rest))

/-- Is this node a value leaf? -/
def isLeafC : CNode α σ → Bool
  | .leaf _ _ => true
  | .node _ _ _ => false

/-- The claim's exception-free local condition on one child list: a list
of exactly one child is allowed only when that child is a leaf. -/
def invHere : List (CNode α σ) → Bool
  | [c] => isLeafC c
  | _ => true

mutual

/-- The literal claim's condition below a non-root node: no internal
node in this subtree has exactly one child. -/
def noSingleN : CNode α σ → Bool
  | .leaf _ _ => true
  | .node _ _ cs => decide (cs.length ≠ 1) && noSingleL cs

/-- `noSingleN` over a child list. -/
def noSingleL : List (CNode α σ) → Bool
  | [] => true
  | c :: cs => noSingleN c && noSingleL cs

end

/-- The literal claim at the root: no non-root internal node has exactly
one child (the root itself is exempt). -/
def noSingleT : CNode α σ → Bool
  | .leaf _ _ => true
  | .node _ _ cs => noSingleL cs

mutual

/-- The amended condition below a non-root node: no internal node in
this subtree has exactly one child, unless that single child is a value
leaf. -/
def goodN : CNode α σ → Bool
  | .leaf _ _ => true
  | .node _ _ cs => invHere cs && goodL cs

/-- `goodN` over a child list. -/
def goodL : List (CNode α σ) → Bool
  | [] => true
  | c :: cs => goodN c && goodL cs

end

/-- The amended condition at the root (the root is exempt). -/
def goodT : CNode α σ → Bool
  | .leaf _ _ => true
  | .node _ _ cs => goodL cs

mutual

/-- The node-model representation invariant below a non-root node
(spec section 4): an internal node has a non-empty fragment and at least
one child, and satisfies the amended single-child condition. -/
def invN : CNode α σ → Bool
  | .leaf _ _ => true
  | .node f _ cs => !f.isEmpty && !cs.isEmpty && invHere cs && invL cs

/-- `invN` over a child list. -/
def invL : List (CNode α σ) → Bool
  | [] => true
  | c :: cs => invN c && invL cs

end

/-- The node-model invariant at the root: the root is an internal node
with an empty fragment and well-formed children (the root is exempt from
the single-child condition). -/
def invT : CNode α σ → Bool
  | .leaf _ _ => false
  | .node f _ cs => f.isEmpty && invL cs

/-- Modelled from the spec: the trees reachable from the empty
compressed tree by `insert` and `remove` calls satisfying their
preconditions (`weight > 0` for insert). -/
inductive CReach : CNode α σ → Prop where
  | empty : CReach (.node [] 0 [])
  | ins (t : CNode α σ) (v : α) (w : ℚ) (p : List σ) (h : CReach t)
      (hw : 0 < w) : CReach (cinsert t v w p)
  | rem (t : CNode α σ) (p : List σ) (h : CReach t) : CReach (cremoveT t p)


end CNode

end CompressedTree

namespace SPT

variable {α σ : Type}

@[simp] theorem root_mk (r : PRoot α σ) (w : ℚ) (ts : List (SPT α σ)) :
    root (.mk r w ts) = r := rfl

@[simp] theorem weight_mk (r : PRoot α σ) (w : ℚ) (ts : List (SPT α σ)) :
    weight (.mk r w ts) = w := rfl

@[simp] theorem subtrees_mk (r : PRoot α σ) (w : ℚ) (ts : List (SPT α σ)) :
    subtrees (.mk r w ts) = ts := rfl

theorem ext_iff (t : SPT α σ) : t = .mk t.root t.weight t.subtrees := by
  cases t; rfl

@[simp] theorem sizeOf_spt (r : PRoot α σ) (w : ℚ) (ts : List (SPT α σ)) :
    sizeOf (SPT.mk r w ts) = 1 + sizeOf r + sizeOf w + sizeOf ts := by
  simp


end SPT


namespace SPT

variable {α σ : Type}

/-- Induction over a tree with the inductive hypothesis available for
every member of the subtree list. -/
theorem memInduction {P : SPT α σ → Prop}
    (h : ∀ r w ts, (∀ c ∈ ts, P c) → P (.mk r w ts)) : ∀ t, P t
  | .mk r w ts => h r w ts fun c hc => memInduction h c
termination_by t => sizeOf t
decreasing_by
  have h1 := List.sizeOf_lt_of_mem hc
  simp at *
  omega

end SPT

section SortLemmas

variable {β : Type} (key : β → ℚ)

theorem insKey_perm (x : β) (l : List β) : List.Perm (insKey key x l) (x :: l) := by
  induction l with
  | nil => exact List.Perm.refl _
  | cons y ys ih =>
    rw [insKey]
    split
    · exact (ih.cons y).trans (List.Perm.swap x y ys)
    · exact List.Perm.refl _

theorem sortKey_perm (l : List β) : List.Perm (sortKey key l) l := by
  induction l with
  | nil => exact List.Perm.refl _
  | cons x xs ih => exact (insKey_perm key x (sortKey key xs)).trans (ih.cons x)

theorem insKey_sorted (x : β) (l : List β)
    (h : l.Sorted fun a b => key b ≤ key a) :
    (insKey key x l).Sorted fun a b => key b ≤ key a := by
  induction l with
  | nil => simp [insKey]
  | cons y ys ih =>
    rw [List.sorted_cons] at h
    rw [insKey]
    split
    · rename_i hlt
      rw [List.sorted_cons]
      refine ⟨?_, ih h.2⟩
      intro b hb
      rcases List.mem_cons.mp ((insKey_perm key x ys).mem_iff.mp hb) with hb | hb
      · exact hb ▸ le_of_lt hlt
      · exact h.1 b hb
    · rename_i hnlt
      rw [List.sorted_cons]
      exact ⟨fun b hb => by
        rcases List.mem_cons.mp hb with hb | hb
        · exact hb ▸ not_lt.mp hnlt
        · exact le_trans (h.1 b hb) (not_lt.mp hnlt),
        List.sorted_cons.mpr h⟩

theorem sortKey_sorted (l : List β) :
    (sortKey key l).Sorted fun a b => key b ≤ key a := by
  induction l with
  | nil => simp [sortKey]
  | cons x xs ih => exact insKey_sorted key x (sortKey key xs) ih

end SortLemmas

namespace SPT

variable {α σ : Type} [DecidableEq α] [DecidableEq σ]

theorem wfChildren_cons_iff {r : List σ} {c : SPT α σ} {cs : List (SPT α σ)} :
    wfChildren r (c :: cs) = true ↔ wfChild r c = true ∧ wfChildren r cs = true := by
  rw [wfChildren, Bool.and_eq_true]

theorem wfChild_val_iff {r : List σ} {v : α} {w : ℚ} {ts : List (SPT α σ)} :
    wfChild r (.mk (.val v) w ts) = true ↔ ts = [] ∧ 0 < w := by
  simp [wfChild, List.isEmpty_iff]

theorem wfChild_pre_iff {r q : List σ} {w : ℚ} {ts : List (SPT α σ)} :
    wfChild r (.mk (.pre q) w ts) = true ↔
      q ≠ [] ∧ q.dropLast = r ∧ 0 < w ∧ ts ≠ [] ∧
        distinctRoots (ts.map root) = true ∧ wfChildren q ts = true := by
  simp [wfChild, List.isEmpty_iff, List.isEmpty_eq_false, and_assoc]

/-- A well-formed internal child's root extends its parent's path by one
symbol. -/
theorem wfChild_pre_shape {r q : List σ} {w : ℚ} {ts : List (SPT α σ)}
    (h : wfChild (α := α) r (.mk (.pre q) w ts) = true) : ∃ s, q = r ++ [s] := by
  obtain ⟨hq, hdrop, -⟩ := wfChild_pre_iff.mp h
  exact ⟨q.getLast hq, by rw [← hdrop, List.dropLast_append_getLast hq]⟩

theorem distinctRoots_cons_iff {x : PRoot α σ} {xs : List (PRoot α σ)} :
    distinctRoots (x :: xs) = true ↔ x ∉ xs ∧ distinctRoots xs = true := by
  simp [distinctRoots, List.contains_iff_exists_mem_beq]

theorem findNodeList_eq_none_iff {p : List σ} {ts : List (SPT α σ)} :
    findNodeList p ts = none ↔ ∀ c ∈ ts, findNode p c = none := by
  induction ts with
  | nil => simp [findNodeList]
  | cons c cs ih =>
    rw [findNodeList]
    cases hfc : findNode p c with
    | some n => simp [hfc]
    | none => simp [hfc, ih]

theorem findNodeList_eq_some {p : List σ} {ts : List (SPT α σ)} {n : SPT α σ}
    (h : findNodeList p ts = some n) : ∃ c ∈ ts, findNode p c = some n := by
  induction ts with
  | nil => simp [findNodeList] at h
  | cons c cs ih =>
    rw [findNodeList] at h
    cases hfc : findNode p c with
    | some m =>
      rw [hfc] at h
      exact ⟨c, List.mem_cons_self c cs, hfc.trans h⟩
    | none =>
      rw [hfc] at h
      obtain ⟨c', hc', h'⟩ := ih h
      exact ⟨c', List.mem_cons_of_mem c hc', h'⟩

/-- A found node's root is the searched path. -/
theorem findNode_root {p : List σ} (t : SPT α σ) {n : SPT α σ}
    (h : findNode p t = some n) : n.root = .pre p := by
  induction t using SPT.memInduction with
  | h r w ts ih =>
    rw [findNode] at h
    split at h
    · cases h
      rename_i hr
      simpa using hr
    · obtain ⟨c, hc, hfc⟩ := findNodeList_eq_some h
      exact ih c hc hfc

/-- If no node of `t` has root `.pre p`, `autocomplete` returns the empty
list (for both limit modes). -/
theorem autocomplete_fst_eq_nil_of_findNode_none (t : SPT α σ) (p : List σ)
    (l : Option Nat) (h : findNode p t = none) : (autocompleteM t p l).1 = [] := by
  induction t using SPT.memInduction with
  | h r w ts ih =>
    rw [findNode] at h
    split at h
    · cases h
    · rename_i hr
      have hall : ∀ c ∈ ts, findNode p c = none := findNodeList_eq_none_iff.mp h
      have hlist : ∀ cs : List (SPT α σ), (∀ c ∈ cs, findNode p c = none) →
          (∀ c ∈ cs, findNode p c = none → (autocompleteM c p l).1 = []) →
          (autocompleteList cs p l).1 = [] := by
        intro cs h1 h2
        induction cs with
        | nil => cases l <;> rfl
        | cons c cs ihc =>
          rw [autocompleteList]
          simp only
          rw [h2 c (List.mem_cons_self c cs) (h1 c (List.mem_cons_self c cs)),
            ihc (fun d hd => h1 d (List.mem_cons_of_mem c hd))
              (fun d hd => h2 d (List.mem_cons_of_mem c hd))]
          rfl
      cases l with
      | none =>
        rw [autocompleteM, if_neg hr]
        exact hlist ts hall fun c hc _ => ih c hc (hall c hc)
      | some k =>
        rw [autocompleteM, if_neg hr]
        exact hlist ts hall fun c hc _ => ih c hc (hall c hc)

/-- Over a list of children that contain no match, the `autocomplete`
loop collects nothing. -/
theorem autocompleteList_fst_eq_nil {p : List σ} {cs : List (SPT α σ)}
    (l : Option Nat) (h : ∀ c ∈ cs, findNode p c = none) :
    (autocompleteList cs p l).1 = [] := by
  induction cs with
  | nil => cases l <;> rfl
  | cons c cs ihc =>
    rw [autocompleteList]
    simp only
    rw [autocomplete_fst_eq_nil_of_findNode_none c p l (h c (List.mem_cons_self c cs)),
      ihc fun d hd => h d (List.mem_cons_of_mem c hd)]
    rfl

theorem wfChildren_mem {r : List σ} {ts : List (SPT α σ)}
    (h : wfChildren r ts = true) {c : SPT α σ} (hc : c ∈ ts) : wfChild r c = true := by
  induction ts with
  | nil => cases hc
  | cons c' cs ih =>
    obtain ⟨h1, h2⟩ := wfChildren_cons_iff.mp h
    rcases List.mem_cons.mp hc with hc | hc
    · exact hc ▸ h1
    · exact ih h2 hc

/-- General form of `wfChild_pre_shape` through `root`. -/
theorem wfChild_root_shape {r q : List σ} {c : SPT α σ}
    (h : wfChild r c = true) (hr : c.root = .pre q) : ∃ s, q = r ++ [s] := by
  cases c with
  | mk rt w ts =>
    cases rt with
    | pre q' => cases hr; exact wfChild_pre_shape h
    | val v => cases hr

theorem is_empty_mk_of_pos {r : PRoot α σ} {w : ℚ} {ts : List (SPT α σ)}
    (h : 0 < w) : is_empty (SPT.mk r w ts) = false := by
  simp [is_empty, beq_eq_false_iff_ne, ne_of_gt h]

theorem get_leaves_internal {r : PRoot α σ} {w : ℚ} {ts : List (SPT α σ)}
    (hw : 0 < w) (hts : ts ≠ []) :
    get_leaves (SPT.mk r w ts) = get_leavesList ts := by
  rw [get_leaves, if_neg (by simp [is_empty_mk_of_pos hw]),
    if_neg (by simp [is_leaf, List.isEmpty_eq_false.mpr hts])]

theorem get_leaves_leafNode (r : PRoot α σ) {w : ℚ} (hw : 0 < w) :
    get_leaves (SPT.mk r w []) = [SPT.mk r w []] := by
  rw [get_leaves, if_neg (by simp [is_empty_mk_of_pos hw]),
    if_pos (by simp [is_leaf, hw])]

theorem not_append_cons_prefix_self (r : List σ) (d : σ) (u : List σ) :
    ¬ (r ++ d :: u <+: r) := by
  intro h
  have := h.length_le
  simp at this

theorem eq_of_append_cons_start {r : List σ} {d s : σ} {u rest : List σ}
    (h : r ++ d :: u <+: r ++ s :: rest) : d = s := by
  obtain ⟨w, hw⟩ := h
  rw [List.append_assoc] at hw
  have := List.append_cancel_left hw
  cases this
  rfl

theorem singleton_ext_prefix_unique {q : List σ} {s1 s2 : σ} {p : List σ}
    (h1 : q ++ [s1] <+: p) (h2 : q ++ [s2] <+: p) : s1 = s2 := by
  have e1 := List.prefix_iff_eq_take.mp h1
  have e2 := List.prefix_iff_eq_take.mp h2
  simp at e1 e2
  have h3 : q ++ [s1] = q ++ [s2] := by rw [e1, e2]
  have h4 := List.append_cancel_left h3
  cases h4
  rfl

/-- All entry paths of a well-formed subtree extend the subtree's own
root path. -/
theorem entries_paths : ∀ (c : SPT α σ) {r q : List σ},
    wfChild r c = true → c.root = .pre q → ∀ e ∈ entries c, q <+: e.1 := by
  intro c
  induction c using SPT.memInduction with
  | h rt w ts ih =>
    intro r q hwf hroot e he
    cases rt with
    | val v =>
      cases hroot
    | pre q' =>
      cases hroot
      obtain ⟨-, -, -, hts, -, hch⟩ := wfChild_pre_iff.mp hwf
      rw [entries] at he
      simp only [rootList] at he
      have main : ∀ cs : List (SPT α σ), (∀ x ∈ cs, x ∈ ts) →
          wfChildren q cs = true → ∀ e ∈ entriesList q cs, q <+: e.1 := by
        intro cs
        induction cs with
        | nil =>
          intro _ _ e he
          cases he
        | cons c1 cs1 ihc =>
          intro hsub hwfc e he
          obtain ⟨h1, h2⟩ := wfChildren_cons_iff.mp hwfc
          have htail := ihc (fun d hd => hsub d (List.mem_cons_of_mem c1 hd)) h2
          rw [entriesList] at he
          split at he
          · rcases List.mem_append.mp he with he | he
            · rw [List.mem_singleton] at he
              subst he
              exact List.prefix_refl _
            · exact htail e he
          · rcases List.mem_append.mp he with he | he
            · cases c1 with
              | mk rt1 w1 ts1 =>
                cases rt1 with
                | val v1 =>
                  obtain ⟨hts1, -⟩ := wfChild_val_iff.mp h1
                  subst hts1
                  simp [entries, entriesList] at he
                | pre q0 =>
                  have hext := ih _ (hsub _ (List.mem_cons_self _ _)) h1 rfl e he
                  obtain ⟨s, hs⟩ := wfChild_pre_shape h1
                  exact List.IsPrefix.trans (hs ▸ List.prefix_append q [s]) hext
            · exact htail e he
      exact main ts (fun x hx => hx) hch e he

/-- A well-formed internal subtree stores at least one entry. -/
theorem entries_ne : ∀ (c : SPT α σ) {r q : List σ},
    wfChild r c = true → c.root = .pre q → entries c ≠ [] := by
  intro c
  induction c using SPT.memInduction with
  | h rt w ts ih =>
    intro r q hwf hroot
    cases rt with
    | val v => cases hroot
    | pre q' =>
      cases hroot
      obtain ⟨-, -, -, hts, -, hch⟩ := wfChild_pre_iff.mp hwf
      rw [entries]
      simp only [rootList]
      cases ts with
      | nil => cases hts rfl
      | cons c' cs' =>
        obtain ⟨h1, -⟩ := wfChildren_cons_iff.mp hch
        rw [entriesList]
        simp only [ne_eq, List.append_eq_nil, not_and]
        intro hfirst
        split at hfirst
        · cases hfirst
        · exfalso
          cases c' with
          | mk rt' w' ts' =>
            cases rt' with
            | val v' =>
              obtain ⟨hts', -⟩ := wfChild_val_iff.mp h1
              rename_i hne
              simp [hts'] at hne
            | pre q0 =>
              exact ih _ (List.mem_cons_self _ _) h1 rfl hfirst

/-- A found node sits below a well-formed child only if the child's root
path is a prefix of the searched path. -/
theorem findNode_some_prefix : ∀ (c : SPT α σ) {r p : List σ} {n : SPT α σ},
    wfChild r c = true → findNode p c = some n → ∃ q, c.root = .pre q ∧ q <+: p := by
  intro c
  induction c using SPT.memInduction with
  | h rt w ts ih =>
    intro r p n hwf hf
    rw [findNode] at hf
    cases rt with
    | val v =>
      obtain ⟨hts, -⟩ := wfChild_val_iff.mp hwf
      subst hts
      split at hf
      · rename_i hcontra; cases hcontra
      · cases hf
    | pre q' =>
      split at hf
      · rename_i heq
        injection heq with heq
        exact ⟨q', rfl, heq ▸ List.prefix_refl _⟩
      · obtain ⟨-, -, -, -, -, hch⟩ := wfChild_pre_iff.mp hwf
        obtain ⟨c', hc', hfc⟩ := findNodeList_eq_some hf
        obtain ⟨q0, hq0, hpre⟩ := ih c' hc' (wfChildren_mem hch hc') hfc
        obtain ⟨s, hs⟩ := wfChild_root_shape (wfChildren_mem hch hc') hq0
        exact ⟨q', rfl, List.IsPrefix.trans (hs ▸ List.prefix_append q' [s])
          (hs ▸ hs ▸ hpre)⟩

/-- Entries of a member subtree with children embed into the child-list
entries. -/
theorem entries_sub_of_mem {q : List σ} {ts : List (SPT α σ)} {c : SPT α σ}
    (hc : c ∈ ts) (hne : c.subtrees.isEmpty = false) :
    ∀ e ∈ entries c, e ∈ entriesList q ts := by
  induction ts with
  | nil => cases hc
  | cons c' cs ih =>
    intro e he
    rw [entriesList]
    rcases List.mem_cons.mp hc with hcc | hcc
    · subst hcc
      rw [hne]
      simp only [Bool.false_eq_true, if_false]
      exact List.mem_append_left _ he
    · exact List.mem_append_right _ (ih hcc e he)

/-- Below a well-formed child, a successful `findNode` guarantees a
stored entry whose path the searched prefix heads. -/
theorem findNode_some_entry : ∀ (c : SPT α σ) {r p : List σ} {n : SPT α σ},
    wfChild r c = true → findNode p c = some n → ∃ e ∈ entries c, p <+: e.1 := by
  intro c
  induction c using SPT.memInduction with
  | h rt w ts ih =>
    intro r p n hwf hf
    rw [findNode] at hf
    cases rt with
    | val v =>
      obtain ⟨hts, -⟩ := wfChild_val_iff.mp hwf
      subst hts
      split at hf
      · rename_i hcontra; cases hcontra
      · cases hf
    | pre q' =>
      split at hf
      · rename_i heq
        injection heq with heq
        subst heq
        obtain ⟨e, he⟩ := List.exists_mem_of_ne_nil _ (entries_ne _ hwf rfl)
        exact ⟨e, he, entries_paths _ hwf rfl e he⟩
      · obtain ⟨-, -, -, -, -, hch⟩ := wfChild_pre_iff.mp hwf
        obtain ⟨c', hc', hfc⟩ := findNodeList_eq_some hf
        have hwfc' := wfChildren_mem hch hc'
        obtain ⟨e, he, hpe⟩ := ih c' hc' hwfc' hfc
        obtain ⟨q0, hq0, -⟩ := findNode_some_prefix c' hwfc' hfc
        have hne : c'.subtrees.isEmpty = false := by
          cases c' with
          | mk rt' w' ts' =>
            cases hq0
            obtain ⟨-, -, -, hts', -⟩ := wfChild_pre_iff.mp hwfc'
            simpa [List.isEmpty_eq_false] using hts'
        rw [entries]
        simp only [rootList]
        exact ⟨e, entries_sub_of_mem hc' hne e he, hpe⟩

/-- List-level form of `entries_paths`. -/
theorem entriesList_paths : ∀ (cs : List (SPT α σ)) {q : List σ},
    wfChildren q cs = true → ∀ e ∈ entriesList q cs, q <+: e.1 := by
  intro cs
  induction cs with
  | nil =>
    intro q _ e he
    cases he
  | cons c1 cs1 ihc =>
    intro q hwfc e he
    obtain ⟨h1, h2⟩ := wfChildren_cons_iff.mp hwfc
    rw [entriesList] at he
    split at he
    · rcases List.mem_append.mp he with he | he
      · rw [List.mem_singleton] at he
        subst he
        exact List.prefix_refl _
      · exact ihc h2 e he
    · rename_i hcond
      rcases List.mem_append.mp he with he | he
      · cases c1 with
        | mk rt1 w1 ts1 =>
          cases rt1 with
          | val v1 =>
            obtain ⟨hts1, -⟩ := wfChild_val_iff.mp h1
            subst hts1
            simp at hcond
          | pre q1 =>
            obtain ⟨s1, hs1⟩ := wfChild_pre_shape h1
            exact List.IsPrefix.trans (hs1 ▸ List.prefix_append q [s1])
              (entries_paths _ h1 rfl e he)
      · exact ihc h2 e he

/-- The entry triples of a well-formed internal node project to exactly
the `(root, weight)` pairs of its pre-order leaves. -/
theorem entries_pairs : ∀ (c : SPT α σ) {q : List σ} {w : ℚ} {ts : List (SPT α σ)},
    c = .mk (.pre q) w ts → 0 < w → ts ≠ [] → wfChildren q ts = true →
    (entries c).map (fun e => (e.2.1, e.2.2)) =
      (get_leaves c).map fun l => (l.root, l.weight) := by
  intro c
  induction c using SPT.memInduction with
  | h rt w0 ts0 ih =>
    intro q w ts heq hw hts hch
    injection heq with e1 e2 e3
    subst e1
    subst e2
    subst e3
    rw [entries]
    simp only [rootList]
    rw [get_leaves_internal hw hts]
    have main : ∀ cs : List (SPT α σ), (∀ x ∈ cs, x ∈ ts0) →
        wfChildren q cs = true →
        (entriesList q cs).map (fun e => (e.2.1, e.2.2)) =
          (get_leavesList cs).map fun l => (l.root, l.weight) := by
      intro cs
      induction cs with
      | nil =>
        intro _ _
        rfl
      | cons c1 cs1 ihc =>
        intro hsub hwfc
        obtain ⟨h1, h2⟩ := wfChildren_cons_iff.mp hwfc
        rw [entriesList, get_leavesList]
        simp only [List.map_append]
        have htail := ihc (fun d hd => hsub d (List.mem_cons_of_mem c1 hd)) h2
        rw [htail]
        congr 1
        cases c1 with
        | mk rt1 w1 ts1 =>
          cases rt1 with
          | val v1 =>
            obtain ⟨hts1, hw1⟩ := wfChild_val_iff.mp h1
            subst hts1
            rw [if_pos (by simp), get_leaves_leafNode _ hw1]
            rfl
          | pre q1 =>
            obtain ⟨-, -, hw1, hts1, -, hch1⟩ := wfChild_pre_iff.mp h1
            rw [if_neg (by simp [List.isEmpty_eq_false.mpr hts1])]
            exact ih _ (hsub _ (List.mem_cons_self _ _)) rfl hw1 hts1 hch1
    exact main ts0 (fun x hx => hx) hch

/-- List-level form of `entries_pairs`. -/
theorem entriesList_pairs : ∀ (cs : List (SPT α σ)) {q : List σ},
    wfChildren q cs = true →
    (entriesList q cs).map (fun e => (e.2.1, e.2.2)) =
      (get_leavesList cs).map fun l => (l.root, l.weight) := by
  intro cs
  induction cs with
  | nil =>
    intro q _
    rfl
  | cons c1 cs1 ihc =>
    intro q hwfc
    obtain ⟨h1, h2⟩ := wfChildren_cons_iff.mp hwfc
    rw [entriesList, get_leavesList]
    simp only [List.map_append]
    rw [ihc h2]
    congr 1
    cases c1 with
    | mk rt1 w1 ts1 =>
      cases rt1 with
      | val v1 =>
        obtain ⟨hts1, hw1⟩ := wfChild_val_iff.mp h1
        subst hts1
        rw [if_pos (by simp), get_leaves_leafNode _ hw1]
        rfl
      | pre q1 =>
        obtain ⟨-, -, hw1, hts1, -, hch1⟩ := wfChild_pre_iff.mp h1
        rw [if_neg (by simp [List.isEmpty_eq_false.mpr hts1])]
        exact entries_pairs _ rfl hw1 hts1 hch1

/-- Decomposition of a strict prefix extension. -/
theorem prefix_ne_decomp {q p : List σ} (h : q <+: p) (hne : q ≠ p) :
    ∃ d u, p = q ++ d :: u := by
  obtain ⟨w', hw'⟩ := h
  cases w' with
  | nil =>
    rw [List.append_nil] at hw'
    exact absurd hw' hne
  | cons d u => exact ⟨d, u, hw'.symm⟩

/-- A well-formed child whose root is not the on-path extension contains
no node matching `p = q ++ d :: u`. -/
theorem findNode_none_of_offpath {q p : List σ} {d : σ} {u : List σ}
    (hp : p = q ++ d :: u) {c : SPT α σ} (h1 : wfChild q c = true)
    (h2 : c.root ≠ .pre (q ++ [d])) : findNode p c = none := by
  cases hfc : findNode p c with
  | none => rfl
  | some n =>
    exfalso
    obtain ⟨q2, hq2, hq2p⟩ := findNode_some_prefix c h1 hfc
    obtain ⟨s2, hs2⟩ := wfChild_root_shape h1 hq2
    have hdp : q ++ [d] <+: p := ⟨u, by simp [hp]⟩
    have : s2 = d := singleton_ext_prefix_unique (hs2 ▸ hq2p) hdp
    exact h2 (by rw [hq2, hs2, this])

/-- The entries of a well-formed off-path child survive no `p`-filter. -/
theorem entries_filter_nil_of_offpath {q p : List σ} {d : σ} {u : List σ}
    (hp : p = q ++ d :: u) {c : SPT α σ} (h1 : wfChild q c = true)
    (h2 : c.root ≠ .pre (q ++ [d])) :
    (entries c).filter (fun e => decide (p <+: e.1)) = [] := by
  rw [List.filter_eq_nil_iff]
  intro e he
  simp only [decide_eq_true_eq]
  intro hpe
  cases c with
  | mk rt1 w1 ts1 =>
    cases rt1 with
    | val v1 =>
      obtain ⟨hts1, -⟩ := wfChild_val_iff.mp h1
      subst hts1
      simp [entries, entriesList] at he
    | pre q1 =>
      obtain ⟨s1, hs1⟩ := wfChild_pre_shape h1
      have hq1e : q1 <+: e.1 := entries_paths _ h1 rfl e he
      have hs1d : s1 ≠ d := fun hcontra => h2 (by rw [hs1, hcontra]; rfl)
      rcases List.prefix_or_prefix_of_prefix hpe hq1e with hc | hc
      · rw [hp, hs1] at hc
        exact hs1d (eq_of_append_cons_start hc).symm
      · have hdp : q ++ [d] <+: p := ⟨u, by simp [hp]⟩
        exact hs1d (singleton_ext_prefix_unique (hs1 ▸ hc) hdp)

/-- Over well-formed children none of which is the on-path extension,
the filtered child-list entries are empty. -/
theorem entriesList_filter_nil {q p : List σ} {d : σ} {u : List σ}
    (hp : p = q ++ d :: u) : ∀ (cs : List (SPT α σ)),
    wfChildren q cs = true → (∀ c1 ∈ cs, c1.root ≠ .pre (q ++ [d])) →
    (entriesList q cs).filter (fun e => decide (p <+: e.1)) = [] := by
  intro cs
  induction cs with
  | nil =>
    intro _ _
    rfl
  | cons c1 cs1 ihc =>
    intro hwfc hoff
    obtain ⟨h1, h2⟩ := wfChildren_cons_iff.mp hwfc
    rw [entriesList, List.filter_append,
      ihc h2 (fun d1 hd1 => hoff d1 (List.mem_cons_of_mem c1 hd1)),
      List.append_nil]
    split
    · rw [List.filter_eq_nil_iff]
      intro e he
      rw [List.mem_singleton] at he
      subst he
      simp only [decide_eq_true_eq]
      rw [hp]
      exact not_append_cons_prefix_self q d u
    · exact entries_filter_nil_of_offpath hp h1
        (hoff c1 (List.mem_cons_self _ _))

/-- Unpacking of whole-tree well-formedness. -/
theorem wf_cases {t : SPT α σ} (h : wf t = true) :
    t = SPT.empty ∨ ∃ w ts, t = .mk (.pre []) w ts ∧ 0 < w ∧ ts ≠ [] ∧
      distinctRoots (ts.map root) = true ∧ wfChildren [] ts = true := by
  cases t with
  | mk rt w ts =>
    rw [wf] at h
    simp only [Bool.or_eq_true, Bool.and_eq_true, Bool.not_eq_true', beq_iff_eq,
      decide_eq_true_eq, List.isEmpty_iff, List.isEmpty_eq_false] at h
    rcases h with ⟨⟨h1, h2⟩, h3⟩ | ⟨⟨⟨⟨h1, h2⟩, h3⟩, h4⟩, h5⟩
    · left
      rw [SPT.empty, h1, h2, h3]
    · right
      exact ⟨w, ts, by rw [h1], h2, h3, h4, h5⟩

/-- Core correctness of limited retrieval on a well-formed subtree:
the result is the `k`-truncated pre-order leaf listing of the matching
node (or empty when no node matches). -/
theorem autocomplete_some_eq : ∀ (c : SPT α σ) {q : List σ} {w : ℚ}
    {ts : List (SPT α σ)},
    c = .mk (.pre q) w ts → 0 < w → ts ≠ [] → distinctRoots (ts.map root) = true →
    wfChildren q ts = true → ∀ (p : List σ) (k : Nat),
    (autocompleteM c p (some k)).1 =
      (findNode p c).elim [] fun n =>
        ((get_leaves n).map fun l => (l.root, l.weight)).take k := by
  intro c
  induction c using SPT.memInduction with
  | h rt w0 ts0 ih =>
    intro q w ts heq hw hts hdist hch p k
    injection heq with e1 e2 e3
    subst e1
    subst e2
    subst e3
    by_cases hqp : q = p
    · subst hqp
      rw [autocompleteM, if_pos rfl, findNode, if_pos rfl]
      rfl
    · have hrne : (PRoot.pre q : PRoot α σ) ≠ .pre p := by simpa using hqp
      rw [autocompleteM, if_neg hrne, findNode, if_neg hrne]
      simp only
      have main : ∀ cs : List (SPT α σ), (∀ x ∈ cs, x ∈ ts0) →
          wfChildren q cs = true → distinctRoots (cs.map root) = true →
          (autocompleteList cs p (some k)).1 =
            (findNodeList p cs).elim [] fun n =>
              ((get_leaves n).map fun l => (l.root, l.weight)).take k := by
        intro cs
        induction cs with
        | nil =>
          intro _ _ _
          rfl
        | cons c1 cs1 ihc =>
          intro hsub hwfc hdst
          obtain ⟨h1, h2⟩ := wfChildren_cons_iff.mp hwfc
          rw [List.map_cons] at hdst
          obtain ⟨hnotin, hdst2⟩ := distinctRoots_cons_iff.mp hdst
          rw [autocompleteList, findNodeList]
          simp only
          cases hfc : findNode p c1 with
          | none =>
            rw [autocomplete_fst_eq_nil_of_findNode_none c1 p _ hfc,
              List.nil_append]
            exact ihc (fun x hx => hsub x (List.mem_cons_of_mem c1 hx)) h2 hdst2
          | some n =>
            obtain ⟨q1, hq1, hq1p⟩ := findNode_some_prefix c1 h1 hfc
            obtain ⟨s1, hs1⟩ := wfChild_root_shape h1 hq1
            obtain ⟨u0, hu0⟩ := hq1p
            have hp : p = q ++ s1 :: u0 := by
              rw [← hu0, hs1]
              simp
            have htail : ∀ c2 ∈ cs1, findNode p c2 = none := by
              intro c2 hc2
              apply findNode_none_of_offpath hp (wfChildren_mem h2 hc2)
              intro hroot2
              apply hnotin
              rw [List.mem_map]
              exact ⟨c2, hc2, by rw [hroot2, ← hs1, ← hq1]⟩
            rw [autocompleteList_fst_eq_nil _ htail, List.append_nil]
            cases c1 with
            | mk rt1 w1 ts1 =>
              simp only [root_mk] at hq1
              subst hq1
              obtain ⟨-, -, hw1, hts1, hdist1, hch1⟩ := wfChild_pre_iff.mp h1
              have hhead := ih _ (hsub _ (List.mem_cons_self _ _)) rfl hw1 hts1
                hdist1 hch1 p k
              rw [hfc] at hhead
              rw [hhead]
      exact main ts0 (fun x hx => hx) hch hdist

/-- Core correctness of unlimited retrieval on a well-formed subtree:
the result is the weight-sorted list of all stored pairs whose prefix
sequence begins with `p`. -/
theorem autocomplete_none_eq : ∀ (c : SPT α σ) {q : List σ} {w : ℚ}
    {ts : List (SPT α σ)},
    c = .mk (.pre q) w ts → 0 < w → ts ≠ [] → distinctRoots (ts.map root) = true →
    wfChildren q ts = true → ∀ (p : List σ), q <+: p →
    (autocompleteM c p none).1 = sortKey Prod.snd (matchPairs p c) := by
  intro c
  induction c using SPT.memInduction with
  | h rt w0 ts0 ih =>
    intro q w ts heq hw hts hdist hch p hqp'
    injection heq with e1 e2 e3
    subst e1
    subst e2
    subst e3
    by_cases hqp : q = p
    · subst hqp
      rw [autocompleteM, if_pos rfl, matchPairs]
      have hfil : (entries (SPT.mk (.pre q) w0 ts0)).filter
          (fun e => decide (q <+: e.1)) = entries (SPT.mk (.pre q) w0 ts0) := by
        apply List.filter_eq_self.mpr
        intro e he
        rw [entries] at he
        simp only [rootList] at he
        exact decide_eq_true (entriesList_paths ts0 hch e he)
      rw [hfil, entries_pairs (SPT.mk (.pre q) w0 ts0) rfl hw hts hch]
    · have hrne : (PRoot.pre q : PRoot α σ) ≠ .pre p := by simpa using hqp
      obtain ⟨d, u, hp⟩ := prefix_ne_decomp hqp' hqp
      rw [autocompleteM, if_neg hrne]
      simp only
      rw [matchPairs, entries]
      simp only [rootList]
      have main : ∀ cs : List (SPT α σ), (∀ x ∈ cs, x ∈ ts0) →
          wfChildren q cs = true → distinctRoots (cs.map root) = true →
          (autocompleteList cs p none).1 =
            sortKey Prod.snd (((entriesList q cs).filter fun e =>
              decide (p <+: e.1)).map fun e => (e.2.1, e.2.2)) := by
        intro cs
        induction cs with
        | nil =>
          intro _ _ _
          rfl
        | cons c1 cs1 ihc =>
          intro hsub hwfc hdst
          obtain ⟨h1, h2⟩ := wfChildren_cons_iff.mp hwfc
          rw [List.map_cons] at hdst
          obtain ⟨hnotin, hdst2⟩ := distinctRoots_cons_iff.mp hdst
          rw [autocompleteList]
          simp only
          rw [entriesList, List.filter_append, List.map_append]
          cases c1 with
          | mk rt1 w1 ts1 =>
            cases rt1 with
            | val v1 =>
              obtain ⟨hts1, hw1⟩ := wfChild_val_iff.mp h1
              subst hts1
              have hhead : (autocompleteM (SPT.mk (.val v1) w1 []) p none).1 = [] := by
                rw [autocompleteM, if_neg (by simp)]
                rfl
              rw [hhead, List.nil_append, if_pos (by simp)]
              simp only [root_mk, weight_mk]
              have hfil : (([((q : List σ), (PRoot.val v1 : PRoot α σ), w1)]).filter
                  fun e => decide (p <+: e.1)) = [] := by
                rw [List.filter_eq_nil_iff]
                intro e he
                rw [List.mem_singleton] at he
                subst he
                simp only [decide_eq_true_eq]
                rw [hp]
                exact not_append_cons_prefix_self q d u
              rw [hfil]
              simp only [List.map_nil, List.nil_append]
              exact ihc (fun x hx => hsub x (List.mem_cons_of_mem _ hx)) h2 hdst2
            | pre q1 =>
              obtain ⟨-, -, hw1, hts1, hdist1, hch1⟩ := wfChild_pre_iff.mp h1
              rw [if_neg (by simp [List.isEmpty_eq_false.mpr hts1])]
              obtain ⟨s1, hs1⟩ := wfChild_pre_shape h1
              by_cases hsd : s1 = d
              · subst hsd
                have hq1p : q1 <+: p := by
                  rw [hs1, hp]
                  exact ⟨u, by simp⟩
                have hhead := ih _ (hsub _ (List.mem_cons_self _ _)) rfl hw1 hts1
                  hdist1 hch1 p hq1p
                rw [hhead]
                have hoff2 : ∀ c2 ∈ cs1, c2.root ≠ .pre (q ++ [s1]) := by
                  intro c2 hc2 hroot2
                  apply hnotin
                  rw [List.mem_map]
                  exact ⟨c2, hc2, by rw [hroot2, ← hs1]; rfl⟩
                have htail : ∀ c2 ∈ cs1, findNode p c2 = none := fun c2 hc2 =>
                  findNode_none_of_offpath hp (wfChildren_mem h2 hc2) (hoff2 c2 hc2)
                rw [autocompleteList_fst_eq_nil _ htail, List.append_nil,
                  entriesList_filter_nil hp cs1 h2 hoff2]
                simp only [List.map_nil, List.append_nil]
                rw [matchPairs]
              · have hroot_ne : root (SPT.mk (.pre q1) w1 ts1) ≠
                    (.pre (q ++ [d]) : PRoot α σ) := by
                  rw [root_mk]
                  intro hcontra
                  injection hcontra with hcontra
                  rw [hs1] at hcontra
                  have := List.append_cancel_left hcontra
                  injection this with h9
                  exact hsd h9
                have hhead0 : findNode p (SPT.mk (.pre q1) w1 ts1) = none :=
                  findNode_none_of_offpath hp h1 hroot_ne
                rw [autocomplete_fst_eq_nil_of_findNode_none _ p none hhead0,
                  List.nil_append, entries_filter_nil_of_offpath hp h1 hroot_ne]
                simp only [List.map_nil, List.nil_append]
                exact ihc (fun x hx => hsub x (List.mem_cons_of_mem _ hx)) h2 hdst2
      exact main ts0 (fun x hx => hx) hch hdist

theorem removeLoop_nil (p : List σ) (w : ℚ) :
    removeLoop (α := α) p [] w = ([], w) := rfl

/-- Unfolding of the `remove` loop over a child that did not become
empty: the child is kept and the iteration proceeds normally. -/
theorem removeLoop_cons_of_not_empty {p : List σ} {x : SPT α σ}
    (xs : List (SPT α σ)) (w : ℚ) (h : is_empty (remove x p) = false) :
    removeLoop p (x :: xs) w =
      ((remove x p) :: (removeLoop p xs w).1, (removeLoop p xs w).2) := by
  rw [removeLoop.eq_def]
  dsimp only
  rw [if_neg (by simp [h])]

/-- On a well-formed subtree containing no node with root `.pre p`,
`remove p` changes nothing and the subtree stays non-empty. -/
theorem remove_noop : ∀ (c : SPT α σ) {r : List σ} (p : List σ),
    wfChild r c = true → p ≠ [] → findNode p c = none →
    remove c p = c ∧ is_empty (remove c p) = false := by
  intro c
  induction c using SPT.memInduction with
  | h rt w0 ts0 ih =>
    intro r p hwf hp hf
    obtain ⟨d, u, rfl⟩ : ∃ d u, p = d :: u := by
      cases p with
      | nil => cases hp rfl
      | cons d u => exact ⟨d, u, rfl⟩
    rw [findNode] at hf
    cases rt with
    | val v =>
      obtain ⟨hts, hw⟩ := wfChild_val_iff.mp hwf
      subst hts
      have hrm : remove (SPT.mk (.val v) w0 []) (d :: u) = SPT.mk (.val v) w0 [] := by
        rw [remove, if_neg (by simp)]
        · rfl
        · simp
      refine ⟨hrm, ?_⟩
      rw [hrm]
      exact is_empty_mk_of_pos hw
    | pre q1 =>
      split at hf
      · cases hf
      · rename_i hne
        obtain ⟨-, -, hw, hts, -, hch⟩ := wfChild_pre_iff.mp hwf
        have hall := findNodeList_eq_none_iff.mp hf
        have hloop : ∀ cs : List (SPT α σ), (∀ x ∈ cs, x ∈ ts0) →
            wfChildren q1 cs = true → (∀ x ∈ cs, findNode (d :: u) x = none) →
            ∀ w1 : ℚ, removeLoop (d :: u) cs w1 = (cs, w1) := by
          intro cs
          induction cs with
          | nil =>
            intro _ _ _ w1
            rfl
          | cons c1 cs1 ihc =>
            intro hsub hwfc hnone w1
            obtain ⟨h1, h2⟩ := wfChildren_cons_iff.mp hwfc
            obtain ⟨heq1, hemp1⟩ := ih c1 (hsub _ (List.mem_cons_self _ _))
              (d :: u) h1 (by simp) (hnone _ (List.mem_cons_self _ _))
            rw [removeLoop_cons_of_not_empty cs1 w1 hemp1, heq1,
              ihc (fun x hx => hsub x (List.mem_cons_of_mem _ hx)) h2
                (fun x hx => hnone x (List.mem_cons_of_mem _ hx)) w1]
        constructor
        · rw [remove, if_neg hne]
          · simp only
            rw [hloop ts0 (fun x hx => hx) hch hall w0]
          · simp
        · rw [remove, if_neg hne]
          · simp only
            rw [hloop ts0 (fun x hx => hx) hch hall w0]
            exact is_empty_mk_of_pos hw
          · simp

/-- The `remove` loop is the identity on well-formed children containing
no match. -/
theorem removeLoop_noop : ∀ (cs : List (SPT α σ)) {r : List σ} {p : List σ},
    wfChildren r cs = true → p ≠ [] → (∀ x ∈ cs, findNode p x = none) →
    ∀ w1 : ℚ, removeLoop p cs w1 = (cs, w1) := by
  intro cs
  induction cs with
  | nil =>
    intro r p _ _ _ w1
    rfl
  | cons c1 cs1 ihc =>
    intro r p hwfc hp hnone w1
    obtain ⟨h1, h2⟩ := wfChildren_cons_iff.mp hwfc
    obtain ⟨heq1, hemp1⟩ := remove_noop c1 p h1 hp (hnone _ (List.mem_cons_self _ _))
    rw [removeLoop_cons_of_not_empty cs1 w1 hemp1, heq1,
      ihc h2 hp (fun x hx => hnone x (List.mem_cons_of_mem _ hx)) w1]

theorem get_leaf_value_internal {r : PRoot α σ} {w : ℚ} {ts : List (SPT α σ)}
    (hw : 0 < w) (hts : ts ≠ []) :
    get_leaf_value (SPT.mk r w ts) = get_leaf_valueList ts := by
  rw [get_leaf_value, if_neg (by simp [is_empty_mk_of_pos hw]),
    if_neg (by simp [is_leaf, List.isEmpty_eq_false.mpr hts])]

theorem get_leaf_value_leafNode (r : PRoot α σ) {w : ℚ} (hw : 0 < w) :
    get_leaf_value (SPT.mk r w []) = [r] := by
  rw [get_leaf_value, if_neg (by simp [is_empty_mk_of_pos hw]),
    if_pos (by simp [is_leaf, hw])]

theorem get_leaf_valueList_eq_flatMap (cs : List (SPT α σ)) :
    get_leaf_valueList cs = cs.flatMap get_leaf_value := by
  induction cs with
  | nil => rfl
  | cons c cs ih => rw [get_leaf_valueList, ih, List.flatMap_cons]

theorem get_leavesList_eq_flatMap (cs : List (SPT α σ)) :
    get_leavesList cs = cs.flatMap get_leaves := by
  induction cs with
  | nil => rfl
  | cons c cs ih => rw [get_leavesList, ih, List.flatMap_cons]

theorem get_leaf_valueList_perm {cs cs' : List (SPT α σ)}
    (h : List.Perm cs cs') :
    List.Perm (get_leaf_valueList cs) (get_leaf_valueList cs') := by
  rw [get_leaf_valueList_eq_flatMap, get_leaf_valueList_eq_flatMap]
  exact h.flatMap_right get_leaf_value

theorem get_leavesList_perm {cs cs' : List (SPT α σ)} (h : List.Perm cs cs') :
    List.Perm (get_leavesList cs) (get_leavesList cs') := by
  rw [get_leavesList_eq_flatMap, get_leavesList_eq_flatMap]
  exact h.flatMap_right get_leaves

theorem leafWeightList_eq (v : α) : ∀ cs : List (SPT α σ),
    (((get_leavesList cs).filter fun l => l.root == .val v).map weight).sum =
      (cs.map (leafWeight v)).sum := by
  intro cs
  induction cs with
  | nil => rfl
  | cons c cs ih =>
    rw [get_leavesList, List.filter_append, List.map_append, List.sum_append, ih,
      List.map_cons, List.sum_cons]
    rfl

theorem leafWeight_internal {v : α} {r : PRoot α σ} {w : ℚ} {ts : List (SPT α σ)}
    (hw : 0 < w) (hts : ts ≠ []) :
    leafWeight v (SPT.mk r w ts) = (ts.map (leafWeight v)).sum := by
  rw [leafWeight, get_leaves_internal hw hts, leafWeightList_eq]

theorem count_le_count_flatMap {β γ : Type} [DecidableEq γ] {x : γ}
    {cs : List β} {c0 : β} (hc0 : c0 ∈ cs) (f : β → List γ) :
    (f c0).count x ≤ (cs.flatMap f).count x := by
  obtain ⟨l1, l2, rfl⟩ := List.append_of_mem hc0
  rw [List.flatMap_append, List.flatMap_cons, List.count_append, List.count_append]
  omega

theorem leafWeight_leaf_self {v : α} {wc : ℚ} (hwc : 0 < wc) :
    leafWeight v (SPT.mk (.val v) wc [] : SPT α σ) = wc := by
  unfold leafWeight
  rw [get_leaves_leafNode (PRoot.val v : PRoot α σ) hwc]
  simp

theorem leafWeight_leaf_other {v u : α} {wc : ℚ} (hwc : 0 < wc)
    (hne : u ≠ v) : leafWeight v (SPT.mk (.val u) wc [] : SPT α σ) = 0 := by
  unfold leafWeight
  rw [get_leaves_leafNode (PRoot.val u : PRoot α σ) hwc]
  simp [hne]

theorem sortKey_ne_nil {β : Type} (key : β → ℚ) {l : List β} (h : l ≠ []) :
    sortKey key l ≠ [] := by
  intro h0
  have hlen := (sortKey_perm key l).length_eq
  rw [h0] at hlen
  exact h (List.eq_nil_of_length_eq_zero hlen.symm)

theorem updateFirst_length {β : Type} (q : β → Bool) (f : β → β) :
    ∀ l : List β, (updateFirst q f l).length = l.length := by
  intro l
  induction l with
  | nil => rfl
  | cons c cs ih =>
    rw [updateFirst]
    split
    · rfl
    · rw [List.length_cons, List.length_cons, ih]

theorem reachChildren_cons_iff {r : List σ} {c : SPT α σ} {cs : List (SPT α σ)} :
    reachChildren r (c :: cs) = true ↔
      reachChild r c = true ∧ reachChildren r cs = true := by
  rw [reachChildren, Bool.and_eq_true]

theorem reachChild_val_iff {r : List σ} {v : α} {w : ℚ} {ts : List (SPT α σ)} :
    reachChild r (.mk (.val v) w ts) = true ↔ ts = [] ∧ 0 < w := by
  simp [reachChild, List.isEmpty_iff]

theorem reachChild_pre_iff {r q : List σ} {w : ℚ} {ts : List (SPT α σ)} :
    reachChild r (.mk (.pre q) w ts) = true ↔
      q ≠ [] ∧ q.dropLast = r ∧ 0 < w ∧ (ts.map weight).sum ≤ w ∧
        distinctRoots (ts.map root) = true ∧ reachChildren q ts = true := by
  simp [reachChild, List.isEmpty_iff, and_assoc]

theorem reachChildren_iff_forall : ∀ {r : List σ} {cs : List (SPT α σ)},
    reachChildren r cs = true ↔ ∀ c ∈ cs, reachChild r c = true := by
  intro r cs
  induction cs with
  | nil => simp [reachChildren]
  | cons c cs ih => simp [reachChildren, Bool.and_eq_true, ih]

theorem reachChildren_mem {r : List σ} {ts : List (SPT α σ)}
    (h : reachChildren r ts = true) {c : SPT α σ} (hc : c ∈ ts) :
    reachChild r c = true :=
  reachChildren_iff_forall.mp h c hc

theorem reachChildren_perm {r : List σ} {cs cs' : List (SPT α σ)}
    (hp : List.Perm cs cs') (h : reachChildren r cs = true) :
    reachChildren r cs' = true := by
  rw [reachChildren_iff_forall] at h ⊢
  exact fun c hc => h c (hp.symm.subset hc)

theorem reachChildren_append {r : List σ} {l1 l2 : List (SPT α σ)} :
    reachChildren r (l1 ++ l2) = true ↔
      reachChildren r l1 = true ∧ reachChildren r l2 = true := by
  rw [reachChildren_iff_forall, reachChildren_iff_forall, reachChildren_iff_forall]
  constructor
  · exact fun h => ⟨fun c hc => h c (List.mem_append_left _ hc),
      fun c hc => h c (List.mem_append_right _ hc)⟩
  · intro ⟨h1, h2⟩ c hc
    rcases List.mem_append.mp hc with hc | hc
    · exact h1 c hc
    · exact h2 c hc

theorem reachChild_weight_pos {r : List σ} {c : SPT α σ}
    (h : reachChild r c = true) : 0 < c.weight := by
  cases c with
  | mk rt w ts =>
    cases rt with
    | val v =>
      obtain ⟨-, hw⟩ := reachChild_val_iff.mp h
      exact hw
    | pre q =>
      obtain ⟨-, -, hw, -⟩ := reachChild_pre_iff.mp h
      exact hw

theorem reachChildren_sum_nonneg {r : List σ} : ∀ {cs : List (SPT α σ)},
    reachChildren r cs = true → 0 ≤ (cs.map weight).sum := by
  intro cs
  induction cs with
  | nil =>
    intro _
    simp
  | cons c cs ih =>
    intro h
    obtain ⟨h1, h2⟩ := reachChildren_cons_iff.mp h
    rw [List.map_cons, List.sum_cons]
    have := reachChild_weight_pos h1
    have := ih h2
    linarith

theorem reachChildren_sum_pos {r : List σ} {cs : List (SPT α σ)}
    (h : reachChildren r cs = true) (hcs : cs ≠ []) :
    0 < (cs.map weight).sum := by
  cases cs with
  | nil => exact absurd rfl hcs
  | cons c cs =>
    obtain ⟨h1, h2⟩ := reachChildren_cons_iff.mp h
    rw [List.map_cons, List.sum_cons]
    have := reachChild_weight_pos h1
    have := reachChildren_sum_nonneg h2
    linarith

theorem distinctRoots_iff_nodup : ∀ {l : List (PRoot α σ)},
    distinctRoots l = true ↔ l.Nodup := by
  intro l
  induction l with
  | nil => simp [distinctRoots]
  | cons x xs ih => rw [distinctRoots_cons_iff, List.nodup_cons, ih]

theorem distinctRoots_perm {l l' : List (PRoot α σ)} (hp : List.Perm l l')
    (h : distinctRoots l = true) : distinctRoots l' = true :=
  distinctRoots_iff_nodup.mpr (hp.nodup (distinctRoots_iff_nodup.mp h))

theorem countP_root_eq_count (x : PRoot α σ) : ∀ cs : List (SPT α σ),
    (cs.countP fun c => decide (c.root = x)) = (cs.map root).count x := by
  intro cs
  induction cs with
  | nil => rfl
  | cons c cs ih =>
    by_cases h : c.root = x
    · simp [List.countP_cons, List.count_cons, h, ih]
    · simp [List.countP_cons, List.count_cons, h, ih, Ne.symm h]

theorem countP_root_le_one {x : PRoot α σ} {cs : List (SPT α σ)}
    (h : distinctRoots (cs.map root) = true) :
    (cs.countP fun c => decide (c.root = x)) ≤ 1 := by
  rw [countP_root_eq_count]
  exact List.nodup_iff_count_le_one.mp (distinctRoots_iff_nodup.mp h) x

theorem insert_root (v : α) (w : ℚ) : ∀ (t : SPT α σ) (p : List σ),
    (insert t v w p).root = t.root := by
  intro t p
  cases p with
  | nil =>
    rw [insert]
    split
    · rfl
    · split
      · rfl
      · rfl
  | cons s rest =>
    rw [insert]
    split
    · rfl
    · split
      · rfl
      · rfl

theorem weight_map_bump (v : α) (w : ℚ) : ∀ cs : List (SPT α σ),
    ((cs.map fun c =>
        if c.root = PRoot.val v then SPT.mk c.root (c.weight + w) c.subtrees
        else c).map weight).sum =
      (cs.map weight).sum + (cs.countP fun c => decide (c.root = PRoot.val v)) * w := by
  intro cs
  induction cs with
  | nil => simp
  | cons c cs ih =>
    rw [List.map_cons, List.map_cons, List.sum_cons, List.map_cons, List.sum_cons,
      List.countP_cons, ih]
    by_cases h : c.root = PRoot.val v
    · have hpt : (fun c => decide (c.root = PRoot.val v)) c = true := by simp [h]
      rw [if_pos h, if_pos hpt, weight_mk]
      push_cast
      ring
    · have hpf : ¬ ((fun c => decide (c.root = PRoot.val v)) c = true) := by simp [h]
      rw [if_neg h, if_neg hpf]
      push_cast
      ring

theorem roots_map_bump (v : α) (w : ℚ) (cs : List (SPT α σ)) :
    (cs.map fun c =>
        if c.root = PRoot.val v then SPT.mk c.root (c.weight + w) c.subtrees
        else c).map root = cs.map root := by
  induction cs with
  | nil => rfl
  | cons c cs ih =>
    rw [List.map_cons, List.map_cons, List.map_cons, ih]
    by_cases h : c.root = PRoot.val v
    · rw [if_pos h, root_mk]
    · rw [if_neg h]

theorem reachChildren_map_bump {v : α} {w : ℚ} (hw : 0 < w) {r : List σ} :
    ∀ {cs : List (SPT α σ)}, reachChildren r cs = true →
    reachChildren r (cs.map fun c =>
      if c.root = PRoot.val v then SPT.mk c.root (c.weight + w) c.subtrees
      else c) = true := by
  intro cs
  induction cs with
  | nil =>
    intro _
    rfl
  | cons c cs ih =>
    intro h
    obtain ⟨h1, h2⟩ := reachChildren_cons_iff.mp h
    rw [List.map_cons, reachChildren_cons_iff]
    refine ⟨?_, ih h2⟩
    by_cases hc : c.root = PRoot.val v
    · rw [if_pos hc]
      cases c with
      | mk rt wc ts =>
        simp only [root_mk] at hc
        subst hc
        obtain ⟨hts, hwc⟩ := reachChild_val_iff.mp h1
        subst hts
        simp only [root_mk, weight_mk, subtrees_mk]
        exact reachChild_val_iff.mpr ⟨rfl, by linarith⟩
    · rw [if_neg hc]
      exact h1

theorem insert_weight_le {v : α} {w : ℚ} (hw : 0 < w) {t : SPT α σ}
    (hd : distinctRoots (t.subtrees.map root) = true) (h0 : 0 ≤ t.weight)
    (p : List σ) : (insert t v w p).weight ≤ t.weight + w := by
  cases t with
  | mk rt w0 ts =>
    simp only [subtrees_mk] at hd
    simp only [weight_mk] at h0 ⊢
    cases p with
    | nil =>
      rw [insert]
      split
      · simp only [sortTop, weight_mk, root_mk, subtrees_mk]
        linarith
      · split
        · simp only [sortTop, weight_mk, root_mk, subtrees_mk]
          exact le_rfl
        · simp only [sortTop, weight_mk, root_mk, subtrees_mk]
          have hk := countP_root_le_one (x := PRoot.val v) hd
          have : ((ts.countP fun c => decide (c.root = PRoot.val v)) : ℚ) ≤ 1 := by
            exact_mod_cast hk
          nlinarith
    | cons s rest =>
      rw [insert]
      split
      · simp only [sortTop, weight_mk, root_mk, subtrees_mk]
        exact le_rfl
      · split
        · simp only [sortTop, weight_mk, root_mk, subtrees_mk]
          linarith
        · simp only [sortTop, weight_mk, root_mk, subtrees_mk]
          exact le_rfl

theorem insert_weight_pos {v : α} {w : ℚ} (hw : 0 < w) {t : SPT α σ}
    (h0 : 0 ≤ t.weight) (p : List σ) : 0 < (insert t v w p).weight := by
  cases t with
  | mk rt w0 ts =>
    simp only [weight_mk] at h0
    cases p with
    | nil =>
      rw [insert]
      split
      · simp only [sortTop, weight_mk, root_mk, subtrees_mk]
        exact hw
      · next hne =>
        split
        · simp only [sortTop, weight_mk, root_mk, subtrees_mk]
          linarith
        · next hmem =>
          simp only [sortTop, weight_mk, root_mk, subtrees_mk]
          have hw0 : w0 ≠ 0 := by
            intro h00
            subst h00
            apply hmem
            rw [get_leaf_value, if_pos (by simp [is_empty])]
            exact List.not_mem_nil _
          have hw0' : 0 < w0 := lt_of_le_of_ne h0 (Ne.symm hw0)
          have hk : (0:ℚ) ≤ ((ts.countP fun c => decide (c.root = PRoot.val v)) : ℚ) * w :=
            mul_nonneg (by positivity) hw.le
          linarith
    | cons s rest =>
      rw [insert]
      split
      · simp only [sortTop, weight_mk, root_mk, subtrees_mk]
        linarith
      · split
        · simp only [sortTop, weight_mk, root_mk, subtrees_mk]
          exact hw
        · simp only [sortTop, weight_mk, root_mk, subtrees_mk]
          linarith

theorem dropLast_append_single (l : List σ) (a : σ) : (l ++ [a]).dropLast = l := by
  simp

/-- A fresh chain created by `insert` below path `r` has weight exactly
the inserted weight and satisfies the maintained invariant. -/
theorem insert_chain (v : α) {w : ℚ} (hw : 0 < w) :
    ∀ (rest : List σ) (r : List σ) (s : σ),
      (insert (SPT.mk (.pre (r ++ [s])) w []) v w rest).weight = w ∧
      reachChild r (insert (SPT.mk (.pre (r ++ [s])) w []) v w rest) = true := by
  intro rest
  induction rest with
  | nil =>
    intro r s
    rw [insert, if_pos (by simp)]
    have hsk : sortKey weight [SPT.mk (PRoot.val v) w ([] : List (SPT α σ))] =
        [SPT.mk (PRoot.val v) w []] := rfl
    constructor
    · simp only [sortTop, weight_mk, root_mk, subtrees_mk]
    · simp only [sortTop, weight_mk, root_mk, subtrees_mk, hsk]
      refine reachChild_pre_iff.mpr ⟨by simp, dropLast_append_single r s, hw, ?_, ?_, ?_⟩
      · simp
      · rw [List.map_cons, List.map_nil, root_mk, distinctRoots, distinctRoots]
        rfl
      · exact reachChildren_cons_iff.mpr ⟨reachChild_val_iff.mpr ⟨rfl, hw⟩, rfl⟩
  | cons s' rest' ih =>
    intro r s
    rw [insert,
      if_neg (by simp [get_subtree_roots]),
      if_pos (by simp)]
    simp only [create_node, root_mk, rootList, subtrees_mk, weight_mk, sortTop,
      List.nil_append]
    obtain ⟨hw', hrc⟩ := ih (r ++ [s]) s'
    have hsk : sortKey weight
        [insert (SPT.mk (.pre ((r ++ [s]) ++ [s'])) w []) v w rest'] =
        [insert (SPT.mk (.pre ((r ++ [s]) ++ [s'])) w []) v w rest'] := rfl
    constructor
    · trivial
    · rw [hsk]
      refine reachChild_pre_iff.mpr ⟨by simp, dropLast_append_single r s, hw, ?_, ?_, ?_⟩
      · rw [List.map_cons, List.map_nil, List.sum_cons, List.sum_nil, hw']
        simp
      · rw [List.map_cons, List.map_nil, distinctRoots, distinctRoots]
        rfl
      · exact reachChildren_cons_iff.mpr ⟨hrc, rfl⟩

theorem updateFirst_map_root {pr : SPT α σ → Bool} {f : SPT α σ → SPT α σ}
    (hf : ∀ c, pr c = true → (f c).root = c.root) :
    ∀ cs : List (SPT α σ), (updateFirst pr f cs).map root = cs.map root := by
  intro cs
  induction cs with
  | nil => rfl
  | cons c cs ih =>
    rw [updateFirst]
    split
    · next hp =>
      rw [List.map_cons, List.map_cons, hf c hp]
    · rw [List.map_cons, List.map_cons, ih]

theorem updateFirst_sum_le {w : ℚ} (hw : 0 ≤ w) {pr : SPT α σ → Bool}
    {f : SPT α σ → SPT α σ} :
    ∀ cs : List (SPT α σ), (∀ c ∈ cs, pr c = true → (f c).weight ≤ c.weight + w) →
    ((updateFirst pr f cs).map weight).sum ≤ (cs.map weight).sum + w := by
  intro cs
  induction cs with
  | nil =>
    intro _
    simpa using hw
  | cons c cs ih =>
    intro hf
    rw [updateFirst]
    split
    · next hp =>
      rw [List.map_cons, List.sum_cons, List.map_cons, List.sum_cons]
      have := hf c (List.mem_cons_self _ _) hp
      linarith
    · rw [List.map_cons, List.sum_cons, List.map_cons, List.sum_cons]
      have := ih fun d hd => hf d (List.mem_cons_of_mem _ hd)
      linarith

theorem updateFirst_reachChildren {q : List σ} {pr : SPT α σ → Bool}
    {f : SPT α σ → SPT α σ} :
    ∀ cs : List (SPT α σ), reachChildren q cs = true →
    (∀ c ∈ cs, pr c = true → reachChild q c = true → reachChild q (f c) = true) →
    reachChildren q (updateFirst pr f cs) = true := by
  intro cs
  induction cs with
  | nil =>
    intro _ _
    rfl
  | cons c cs ih =>
    intro h hf
    obtain ⟨h1, h2⟩ := reachChildren_cons_iff.mp h
    rw [updateFirst]
    split
    · next hp =>
      exact reachChildren_cons_iff.mpr ⟨hf c (List.mem_cons_self _ _) hp h1, h2⟩
    · exact reachChildren_cons_iff.mpr
        ⟨h1, ih h2 fun d hd => hf d (List.mem_cons_of_mem _ hd)⟩

/-- A direct value child contributes its value root to `get_leaf_value`
whenever the node is not empty. -/
theorem val_root_mem_glv {v : α} {w0 : ℚ} {ts : List (SPT α σ)} {q : List σ}
    (hw0 : w0 ≠ 0) (hch : reachChildren q ts = true)
    (hmem : (PRoot.val v : PRoot α σ) ∈ ts.map root) (rt : PRoot α σ) :
    (PRoot.val v : PRoot α σ) ∈ get_leaf_value (SPT.mk rt w0 ts) := by
  obtain ⟨c, hc, hcr⟩ := List.mem_map.mp hmem
  have hts : ts ≠ [] := List.ne_nil_of_mem hc
  rw [get_leaf_value, if_neg (by simp [is_empty, hw0]),
    if_neg (by simp [is_leaf, List.isEmpty_eq_false.mpr hts]),
    get_leaf_valueList_eq_flatMap]
  refine List.mem_flatMap.mpr ⟨c, hc, ?_⟩
  cases c with
  | mk rtc wc tsc =>
    simp only [root_mk] at hcr
    subst hcr
    obtain ⟨htsc, hwc⟩ := reachChild_val_iff.mp (reachChildren_mem hch hc)
    subst htsc
    rw [get_leaf_value_leafNode _ hwc]
    simp

theorem reachInv_iff {rt : PRoot α σ} {w : ℚ} {ts : List (SPT α σ)} :
    reachInv (.mk rt w ts) = true ↔
      rt = .pre [] ∧ (ts.map weight).sum ≤ w ∧
        distinctRoots (ts.map root) = true ∧ reachChildren [] ts = true := by
  simp [reachInv, and_assoc]

/-- `insert` preserves the maintained invariant below any internal
node. -/
theorem insert_reachChild (v : α) {w : ℚ} (hw : 0 < w) :
    ∀ (c : SPT α σ) {q q' : List σ}, c.root = .pre q' →
      reachChild q c = true → ∀ p,
      reachChild q (insert c v w p) = true := by
  intro c
  induction c using SPT.memInduction with
  | h rt1 w1 ts1 ih =>
    intro q q' hroot hrc p
    cases rt1 with
    | val u =>
      simp only [root_mk] at hroot
      exact absurd hroot (by simp)
    | pre q1 =>
      obtain ⟨hq1, hdrop, hw0, hsum, hdist, hch⟩ := reachChild_pre_iff.mp hrc
      cases p with
      | nil =>
        rw [insert]
        simp only [subtrees_mk, root_mk, weight_mk]
        split
        · next hemp =>
          have hts : ts1 = [] := List.isEmpty_iff.mp hemp
          subst hts
          simp only [sortTop, root_mk, weight_mk, subtrees_mk]
          have hsk : sortKey weight [SPT.mk (PRoot.val v) w ([] : List (SPT α σ))] =
              [SPT.mk (PRoot.val v) w []] := rfl
          rw [hsk]
          refine reachChild_pre_iff.mpr ⟨hq1, hdrop, hw, ?_, ?_, ?_⟩
          · simp
          · rw [List.map_cons, List.map_nil, root_mk, distinctRoots, distinctRoots]
            rfl
          · exact reachChildren_cons_iff.mpr ⟨reachChild_val_iff.mpr ⟨rfl, hw⟩, rfl⟩
        · split
          · next hnm =>
            simp only [sortTop, root_mk, weight_mk, subtrees_mk]
            refine reachChild_pre_iff.mpr ⟨hq1, hdrop, by linarith, ?_, ?_, ?_⟩
            · rw [((sortKey_perm weight _).map weight).sum_eq, List.map_append,
                List.sum_append]
              simp only [List.map_cons, List.map_nil, List.sum_cons, List.sum_nil,
                weight_mk]
              linarith
            · refine distinctRoots_perm ((sortKey_perm weight _).map root).symm ?_
              rw [List.map_append, List.map_cons, List.map_nil, root_mk]
              have hnr : (PRoot.val v : PRoot α σ) ∉ ts1.map root := fun hm =>
                hnm (val_root_mem_glv (ne_of_gt hw0) hch hm _)
              apply distinctRoots_iff_nodup.mpr
              simp [List.nodup_append, distinctRoots_iff_nodup.mp hdist, hnr]
            · refine reachChildren_perm (sortKey_perm weight _).symm ?_
              exact reachChildren_append.mpr ⟨hch, reachChildren_cons_iff.mpr
                ⟨reachChild_val_iff.mpr ⟨rfl, hw⟩, rfl⟩⟩
          · simp only [sortTop, root_mk, weight_mk, subtrees_mk]
            have hknn : (0:ℚ) ≤
                ((ts1.countP fun c => decide (c.root = PRoot.val v)) : ℚ) * w :=
              mul_nonneg (by positivity) hw.le
            refine reachChild_pre_iff.mpr ⟨hq1, hdrop, by linarith, ?_, ?_, ?_⟩
            · rw [((sortKey_perm weight _).map weight).sum_eq, weight_map_bump]
              linarith
            · refine distinctRoots_perm ((sortKey_perm weight _).map root).symm ?_
              rw [roots_map_bump]
              exact hdist
            · exact reachChildren_perm (sortKey_perm weight _).symm
                (reachChildren_map_bump hw hch)
      | cons s rest =>
        rw [insert]
        simp only [create_node, root_mk, rootList, subtrees_mk, weight_mk,
          get_subtree_roots]
        split
        · next hmem =>
          simp only [sortTop, root_mk, weight_mk, subtrees_mk]
          refine reachChild_pre_iff.mpr ⟨hq1, hdrop, by linarith, ?_, ?_, ?_⟩
          · rw [((sortKey_perm weight _).map weight).sum_eq]
            refine le_trans (updateFirst_sum_le hw.le ts1 ?_) (by linarith)
            intro c hc hp
            have hcc := reachChildren_mem hch hc
            cases c with
            | mk rtc wc tsc =>
              cases rtc with
              | val u => simp at hp
              | pre qc =>
                obtain ⟨-, -, hwc, -, hdc, -⟩ := reachChild_pre_iff.mp hcc
                exact insert_weight_le hw (by simpa using hdc)
                  (by simpa using hwc.le) rest
          · refine distinctRoots_perm ((sortKey_perm weight _).map root).symm ?_
            rw [updateFirst_map_root (fun c _ => insert_root v w c rest)]
            exact hdist
          · refine reachChildren_perm (sortKey_perm weight _).symm ?_
            refine updateFirst_reachChildren ts1 hch ?_
            intro c hc hp hrc'
            cases c with
            | mk rtc wc tsc =>
              cases rtc with
              | val u => simp at hp
              | pre qc => exact ih _ hc rfl hrc' rest
        · next hnmem =>
          split
          · next hlen =>
            have hts : ts1 = [] := by
              rw [List.length_append, List.length_cons, List.length_nil] at hlen
              exact List.length_eq_zero.mp (by omega)
            subst hts
            simp only [sortTop, root_mk, weight_mk, subtrees_mk, List.nil_append]
            obtain ⟨hcw, hcr⟩ := insert_chain v hw rest q1 s
            have hsk : sortKey weight
                [insert (SPT.mk (.pre (q1 ++ [s])) w []) v w rest] =
                [insert (SPT.mk (.pre (q1 ++ [s])) w []) v w rest] := rfl
            rw [hsk]
            refine reachChild_pre_iff.mpr ⟨hq1, hdrop, hw, ?_, ?_, ?_⟩
            · rw [List.map_cons, List.map_nil, List.sum_cons, List.sum_nil, hcw]
              simp
            · rw [List.map_cons, List.map_nil, distinctRoots, distinctRoots]
              rfl
            · exact reachChildren_cons_iff.mpr ⟨hcr, rfl⟩
          · simp only [sortTop, root_mk, weight_mk, subtrees_mk]
            obtain ⟨hcw, hcr⟩ := insert_chain v hw rest q1 s
            refine reachChild_pre_iff.mpr ⟨hq1, hdrop, by linarith, ?_, ?_, ?_⟩
            · rw [((sortKey_perm weight _).map weight).sum_eq, List.map_append,
                List.sum_append, List.map_cons, List.map_nil, List.sum_cons,
                List.sum_nil, hcw]
              linarith
            · refine distinctRoots_perm ((sortKey_perm weight _).map root).symm ?_
              rw [List.map_append, List.map_cons, List.map_nil, insert_root, root_mk]
              apply distinctRoots_iff_nodup.mpr
              simp [List.nodup_append, distinctRoots_iff_nodup.mp hdist, hnmem]
            · refine reachChildren_perm (sortKey_perm weight _).symm ?_
              exact reachChildren_append.mpr
                ⟨hch, reachChildren_cons_iff.mpr ⟨hcr, rfl⟩⟩

/-- `insert` preserves the maintained invariant at the root. -/
theorem insert_reachInv (v : α) {w : ℚ} (hw : 0 < w) (t : SPT α σ)
    (h : reachInv t = true) (p : List σ) :
    reachInv (insert t v w p) = true := by
  cases t with
  | mk rt w0 ts =>
    obtain ⟨rfl, hsum, hdist, hch⟩ := reachInv_iff.mp h
    have hnn : 0 ≤ (ts.map weight).sum := reachChildren_sum_nonneg hch
    cases p with
    | nil =>
      rw [insert]
      simp only [subtrees_mk, root_mk, weight_mk]
      split
      · next hemp =>
        have hts : ts = [] := List.isEmpty_iff.mp hemp
        subst hts
        simp only [sortTop, root_mk, weight_mk, subtrees_mk]
        have hsk : sortKey weight [SPT.mk (PRoot.val v) w ([] : List (SPT α σ))] =
            [SPT.mk (PRoot.val v) w []] := rfl
        rw [hsk]
        refine reachInv_iff.mpr ⟨rfl, by simp, ?_, ?_⟩
        · rw [List.map_cons, List.map_nil, root_mk, distinctRoots, distinctRoots]
          rfl
        · exact reachChildren_cons_iff.mpr ⟨reachChild_val_iff.mpr ⟨rfl, hw⟩, rfl⟩
      · next hemp =>
        have hts : ts ≠ [] := by
          intro h0
          subst h0
          exact hemp rfl
        have hw0 : 0 < w0 := lt_of_lt_of_le (reachChildren_sum_pos hch hts) hsum
        split
        · next hnm =>
          simp only [sortTop, root_mk, weight_mk, subtrees_mk]
          refine reachInv_iff.mpr ⟨rfl, ?_, ?_, ?_⟩
          · rw [((sortKey_perm weight _).map weight).sum_eq, List.map_append,
              List.sum_append]
            simp only [List.map_cons, List.map_nil, List.sum_cons, List.sum_nil,
              weight_mk]
            linarith
          · refine distinctRoots_perm ((sortKey_perm weight _).map root).symm ?_
            rw [List.map_append, List.map_cons, List.map_nil, root_mk]
            have hnr : (PRoot.val v : PRoot α σ) ∉ ts.map root := fun hm =>
              hnm (val_root_mem_glv (ne_of_gt hw0) hch hm _)
            apply distinctRoots_iff_nodup.mpr
            simp [List.nodup_append, distinctRoots_iff_nodup.mp hdist, hnr]
          · refine reachChildren_perm (sortKey_perm weight _).symm ?_
            exact reachChildren_append.mpr ⟨hch, reachChildren_cons_iff.mpr
              ⟨reachChild_val_iff.mpr ⟨rfl, hw⟩, rfl⟩⟩
        · simp only [sortTop, root_mk, weight_mk, subtrees_mk]
          refine reachInv_iff.mpr ⟨rfl, ?_, ?_, ?_⟩
          · rw [((sortKey_perm weight _).map weight).sum_eq, weight_map_bump]
            have hknn : (0:ℚ) ≤
                ((ts.countP fun c => decide (c.root = PRoot.val v)) : ℚ) * w :=
              mul_nonneg (by positivity) hw.le
            linarith
          · refine distinctRoots_perm ((sortKey_perm weight _).map root).symm ?_
            rw [roots_map_bump]
            exact hdist
          · exact reachChildren_perm (sortKey_perm weight _).symm
              (reachChildren_map_bump hw hch)
    | cons s rest =>
      rw [insert]
      simp only [create_node, root_mk, rootList, subtrees_mk, weight_mk,
        get_subtree_roots, List.nil_append]
      split
      · next hmem =>
        simp only [sortTop, root_mk, weight_mk, subtrees_mk]
        refine reachInv_iff.mpr ⟨rfl, ?_, ?_, ?_⟩
        · rw [((sortKey_perm weight _).map weight).sum_eq]
          refine le_trans (updateFirst_sum_le hw.le ts ?_) (by linarith)
          intro c hc hp
          have hcc := reachChildren_mem hch hc
          cases c with
          | mk rtc wc tsc =>
            cases rtc with
            | val u => simp at hp
            | pre qc =>
              obtain ⟨-, -, hwc, -, hdc, -⟩ := reachChild_pre_iff.mp hcc
              exact insert_weight_le hw (by simpa using hdc)
                (by simpa using hwc.le) rest
        · refine distinctRoots_perm ((sortKey_perm weight _).map root).symm ?_
          rw [updateFirst_map_root (fun c _ => insert_root v w c rest)]
          exact hdist
        · refine reachChildren_perm (sortKey_perm weight _).symm ?_
          refine updateFirst_reachChildren ts hch ?_
          intro c hc hp hrc'
          cases c with
          | mk rtc wc tsc =>
            cases rtc with
            | val u => simp at hp
            | pre qc => exact insert_reachChild v hw (SPT.mk (.pre qc) wc tsc) rfl hrc' rest
      · next hnmem =>
        split
        · next hlen =>
          have hts : ts = [] := by
            rw [List.length_append, List.length_cons, List.length_nil] at hlen
            exact List.length_eq_zero.mp (by omega)
          subst hts
          simp only [sortTop, root_mk, weight_mk, subtrees_mk, List.nil_append]
          obtain ⟨hcw, hcr⟩ := insert_chain v hw rest [] s
          simp only [List.nil_append] at hcw hcr
          have hsk : sortKey weight [insert (SPT.mk (.pre [s]) w []) v w rest] =
              [insert (SPT.mk (.pre [s]) w []) v w rest] := rfl
          rw [hsk]
          refine reachInv_iff.mpr ⟨rfl, ?_, ?_, ?_⟩
          · rw [List.map_cons, List.map_nil, List.sum_cons, List.sum_nil, hcw]
            simp
          · rw [List.map_cons, List.map_nil, distinctRoots, distinctRoots]
            rfl
          · exact reachChildren_cons_iff.mpr ⟨hcr, rfl⟩
        · simp only [sortTop, root_mk, weight_mk, subtrees_mk]
          obtain ⟨hcw, hcr⟩ := insert_chain v hw rest [] s
          simp only [List.nil_append] at hcw hcr
          refine reachInv_iff.mpr ⟨rfl, ?_, ?_, ?_⟩
          · rw [((sortKey_perm weight _).map weight).sum_eq, List.map_append,
              List.sum_append, List.map_cons, List.map_nil, List.sum_cons,
              List.sum_nil, hcw]
            linarith
          · refine distinctRoots_perm ((sortKey_perm weight _).map root).symm ?_
            rw [List.map_append, List.map_cons, List.map_nil, insert_root, root_mk]
            apply distinctRoots_iff_nodup.mpr
            simp [List.nodup_append, distinctRoots_iff_nodup.mp hdist, hnmem]
          · refine reachChildren_perm (sortKey_perm weight _).symm ?_
            exact reachChildren_append.mpr
              ⟨hch, reachChildren_cons_iff.mpr ⟨hcr, rfl⟩⟩

/-- The `remove` loop preserves the maintained invariant on the
surviving children, only shrinks the root list, never increases the
accumulated weight, and decrements it by no more than the children's
total weight loss. -/
theorem removeLoop_inv (p : List σ) :
    ∀ (cs : List (SPT α σ)) (q : List σ) (w : ℚ),
    (∀ c ∈ cs, ∀ q' : List σ, reachChild q' c = true →
      (remove c p).weight ≤ c.weight ∧ 0 ≤ (remove c p).weight ∧
      (is_empty (remove c p) = false →
        (remove c p).root = c.root ∧ reachChild q' (remove c p) = true)) →
    reachChildren q cs = true →
    reachChildren q (removeLoop p cs w).1 = true ∧
    List.Sublist ((removeLoop p cs w).1.map root) (cs.map root) ∧
    (removeLoop p cs w).2 ≤ w ∧
    w - (removeLoop p cs w).2 ≤
      (cs.map weight).sum - (((removeLoop p cs w).1.map weight).sum)
  | [], q, w, hP, hch => by
    have hL : removeLoop p ([] : List (SPT α σ)) w = ([], w) := rfl
    rw [hL]
    exact ⟨rfl, List.nil_sublist _, le_refl w, by simp⟩
  | x :: xs, q, w, hP, hch => by
    obtain ⟨h1, h2⟩ := reachChildren_cons_iff.mp hch
    obtain ⟨hle, hnn, himp⟩ := hP x (List.mem_cons_self _ _) q h1
    have hxw := reachChild_weight_pos h1
    rw [removeLoop.eq_def]
    dsimp only
    split
    · next hemp =>
      cases xs with
      | nil =>
        dsimp only
        refine ⟨rfl, List.nil_sublist _, by linarith, ?_⟩
        simp
      | cons y ys =>
        dsimp only
        obtain ⟨hy, hys⟩ := reachChildren_cons_iff.mp h2
        obtain ⟨ih1, ih2, ih3, ih4⟩ := removeLoop_inv p ys q (w - x.weight)
          (fun c hc => hP c (List.mem_cons_of_mem _ (List.mem_cons_of_mem _ hc))) hys
        refine ⟨reachChildren_cons_iff.mpr ⟨hy, ih1⟩, ?_, by linarith, ?_⟩
        · rw [List.map_cons, List.map_cons, List.map_cons]
          exact (ih2.cons₂ (root y)).cons (root x)
        · simp only [List.map_cons, List.sum_cons]
          linarith
    · next hne =>
      obtain ⟨ih1, ih2, ih3, ih4⟩ := removeLoop_inv p xs q w
        (fun c hc => hP c (List.mem_cons_of_mem _ hc)) h2
      obtain ⟨hroot, hrc'⟩ := himp (Bool.eq_false_iff.mpr hne)
      refine ⟨reachChildren_cons_iff.mpr ⟨hrc', ih1⟩, ?_, ih3, ?_⟩
      · rw [List.map_cons, List.map_cons, hroot]
        exact ih2.cons₂ (root x)
      · simp only [List.map_cons, List.sum_cons]
        linarith

/-- `remove` preserves the maintained invariant below any node: the
weight never grows and never becomes negative, and a surviving
(non-empty) result keeps its root and the invariant. -/
theorem remove_reachChild :
    ∀ c : SPT α σ, ∀ {q : List σ}, reachChild q c = true →
      ∀ (d : σ) (u : List σ),
      (remove c (d :: u)).weight ≤ c.weight ∧ 0 ≤ (remove c (d :: u)).weight ∧
      (is_empty (remove c (d :: u)) = false →
        (remove c (d :: u)).root = c.root ∧
          reachChild q (remove c (d :: u)) = true) := by
  intro c
  induction c using SPT.memInduction with
  | h rt1 w1 ts1 ih =>
    intro q hrc d u
    have hw1 := reachChild_weight_pos hrc
    simp only [weight_mk] at hw1
    rw [remove]
    · split
      · next hreset =>
        refine ⟨?_, ?_, ?_⟩
        · simp only [weight_mk]
          linarith
        · simp only [weight_mk]
          exact le_refl 0
        · intro hemp
          simp [is_empty] at hemp
      · next hnreset =>
        cases rt1 with
        | val vv =>
          obtain ⟨hts, hwv⟩ := reachChild_val_iff.mp hrc
          subst hts
          have hL : removeLoop (d :: u) ([] : List (SPT α σ)) w1 = ([], w1) := rfl
          rw [hL]
          exact ⟨le_refl _, hwv.le, fun _ => ⟨rfl, hrc⟩⟩
        | pre q1 =>
          obtain ⟨hq1, hdrop, hw1', hsum, hdist, hch⟩ := reachChild_pre_iff.mp hrc
          obtain ⟨l1, l2, l3, l4⟩ := removeLoop_inv (d :: u) ts1 q1 w1
            (fun c hc q' hrc' => ih c hc hrc' d u) hch
          have hsubnn : 0 ≤ (((removeLoop (d :: u) ts1 w1).1.map weight).sum) :=
            reachChildren_sum_nonneg l1
          refine ⟨?_, ?_, ?_⟩
          · simp only [weight_mk]
            exact l3
          · simp only [weight_mk]
            linarith
          · intro hemp
            simp only [is_empty, weight_mk, beq_eq_false_iff_ne] at hemp
            refine ⟨rfl, reachChild_pre_iff.mpr ⟨hq1, hdrop,
              lt_of_le_of_ne (by linarith) (Ne.symm hemp), by linarith,
              distinctRoots_iff_nodup.mpr
                (List.Sublist.nodup l2 (distinctRoots_iff_nodup.mp hdist)), l1⟩⟩
    · simp

/-- `remove` preserves the maintained invariant at the root. -/
theorem remove_reachInv (t : SPT α σ) (h : reachInv t = true) (p : List σ) :
    reachInv (remove t p) = true := by
  cases p with
  | nil =>
    cases t with
    | mk rt w0 ts => rfl
  | cons d u =>
    cases t with
    | mk rt w0 ts =>
      obtain ⟨rfl, hsum, hdist, hch⟩ := reachInv_iff.mp h
      rw [remove]
      · split
        · rfl
        · obtain ⟨l1, l2, l3, l4⟩ := removeLoop_inv (d :: u) ts [] w0
            (fun c hc q' hrc' => remove_reachChild c hrc' d u) hch
          exact reachInv_iff.mpr ⟨rfl, by linarith,
            distinctRoots_iff_nodup.mpr
              (List.Sublist.nodup l2 (distinctRoots_iff_nodup.mp hdist)), l1⟩
      · simp

/-- Every reachable tree satisfies the maintained structural
invariant. -/
theorem reach_inv : ∀ {t : SPT α σ}, Reach t → reachInv t = true := by
  intro t h
  induction h with
  | empty => rfl
  | ins t v w p h hw ih => exact insert_reachInv v hw t ih p
  | rem t p h ih => exact remove_reachInv t ih p

/-- A value stored below a node forces that node to have children. -/
theorem storedAt_ne_nil {t : SPT α σ} {p : List σ} {v : α}
    (h : StoredAt t p v) : t.subtrees ≠ [] := by
  cases h with
  | here _ _ c hc _ => exact List.ne_nil_of_mem hc
  | there _ _ _ _ c hc _ _ => exact List.ne_nil_of_mem hc

/-- Bumping the weight of the value's direct leaves does not change the
stored leaf roots. -/
theorem glvList_map_bump (v : α) (w : ℚ) (hw : 0 < w) :
    ∀ (cs : List (SPT α σ)) {q : List σ}, reachChildren q cs = true →
    get_leaf_valueList (cs.map fun c =>
      if c.root = .val v then SPT.mk c.root (c.weight + w) c.subtrees else c) =
      get_leaf_valueList cs := by
  intro cs
  induction cs with
  | nil =>
    intro q _
    rfl
  | cons c1 cs1 ih =>
    intro q hwfc
    obtain ⟨h1, h2⟩ := reachChildren_cons_iff.mp hwfc
    rw [List.map_cons, get_leaf_valueList, get_leaf_valueList, ih h2]
    congr 1
    by_cases hc : c1.root = .val v
    · rw [if_pos hc]
      cases c1 with
      | mk rt1 w1 ts1 =>
        simp only [root_mk] at hc
        subst hc
        obtain ⟨hts1, hw1⟩ := reachChild_val_iff.mp h1
        subst hts1
        simp only [root_mk, weight_mk, subtrees_mk]
        rw [get_leaf_value_leafNode _ hw1, get_leaf_value_leafNode _ (by linarith)]
    · rw [if_neg hc]

/-- Bumping the value's direct leaves adds the weight once per matching
direct child to the value's total stored weight. -/
theorem leafWeightList_map_bump (v : α) (w : ℚ) (hw : 0 < w) :
    ∀ (cs : List (SPT α σ)) {q : List σ}, reachChildren q cs = true →
    ((cs.map fun c =>
        if c.root = .val v then SPT.mk c.root (c.weight + w) c.subtrees else c).map
      (leafWeight v)).sum =
      (cs.map (leafWeight v)).sum +
        (cs.countP fun c => decide (c.root = .val v)) * w := by
  intro cs
  induction cs with
  | nil =>
    intro q _
    simp
  | cons c1 cs1 ih =>
    intro q hwfc
    obtain ⟨h1, h2⟩ := reachChildren_cons_iff.mp hwfc
    rw [List.map_cons, List.map_cons, List.sum_cons, List.map_cons, List.sum_cons,
      List.countP_cons, ih h2]
    by_cases hc : c1.root = .val v
    · have hpt : (fun c => decide (c.root = PRoot.val v)) c1 = true := by
        simp [hc]
      rw [if_pos hc, if_pos hpt]
      cases c1 with
      | mk rt1 w1 ts1 =>
        simp only [root_mk] at hc
        subst hc
        obtain ⟨hts1, hw1⟩ := reachChild_val_iff.mp h1
        subst hts1
        simp only [root_mk, weight_mk, subtrees_mk]
        rw [leafWeight_leaf_self (by linarith), leafWeight_leaf_self hw1]
        push_cast
        ring
    · have hpf : ¬ ((fun c => decide (c.root = PRoot.val v)) c1 = true) := by
        simp [hc]
      rw [if_neg hc, if_neg hpf]
      push_cast
      ring


/-- Inserting a value that is already stored under the same prefix
sequence changes no stored leaf root and adds the weight exactly once to
the value's total stored weight. -/
theorem insert_dup_aux {v : α} {w : ℚ} (hw : 0 < w) :
    ∀ (p q : List σ) (w0 : ℚ) (ts : List (SPT α σ)), 0 < w0 →
    distinctRoots (ts.map root) = true → reachChildren q ts = true →
    StoredAt (SPT.mk (.pre q) w0 ts) p v →
    List.Perm (get_leaf_value (insert (SPT.mk (.pre q) w0 ts) v w p))
      (get_leaf_value (SPT.mk (.pre q) w0 ts)) ∧
    leafWeight v (insert (SPT.mk (.pre q) w0 ts) v w p) =
      leafWeight v (SPT.mk (.pre q) w0 ts) + w := by
  intro p
  induction p with
  | nil =>
    intro q w0 ts hw0 hdst hch hst
    cases hst with
    | here _ _ c0 hc0 hr0 =>
      simp only [subtrees_mk] at hc0
      have hts : ts ≠ [] := List.ne_nil_of_mem hc0
      have hglv : get_leaf_value (SPT.mk (.pre q) w0 ts) = get_leaf_valueList ts :=
        get_leaf_value_internal hw0 hts
      have hmem : (PRoot.val v : PRoot α σ) ∈ get_leaf_value (SPT.mk (.pre q) w0 ts) := by
        rw [hglv, get_leaf_valueList_eq_flatMap]
        refine List.mem_flatMap.mpr ⟨c0, hc0, ?_⟩
        cases c0 with
        | mk rt0 wc0 tsc0 =>
          simp only [root_mk] at hr0
          subst hr0
          obtain ⟨hts0, hwc0⟩ := reachChild_val_iff.mp (reachChildren_mem hch hc0)
          subst hts0
          rw [get_leaf_value_leafNode _ hwc0]
          simp
      have hkle : ts.countP (fun c => decide (c.root = PRoot.val v)) ≤ 1 :=
        countP_root_le_one hdst
      have hkge : 1 ≤ ts.countP (fun c => decide (c.root = PRoot.val v)) := by
        have h1 : 0 < ts.countP (fun c => decide (c.root = PRoot.val v)) :=
          List.countP_pos.mpr ⟨c0, hc0, by simp [hr0]⟩
        omega
      have hk : ts.countP (fun c => decide (c.root = PRoot.val v)) = 1 :=
        Nat.le_antisymm hkle hkge
      rw [insert]
      simp only [root_mk, weight_mk, subtrees_mk]
      rw [if_neg (by simp [List.isEmpty_eq_false.mpr hts]), if_neg (not_not_intro hmem),
        hk]
      have hwnew : (0:ℚ) < w0 + (1:ℕ) * w := by push_cast; linarith
      have hmapne : (ts.map fun c =>
          if c.root = PRoot.val v then SPT.mk c.root (c.weight + w) c.subtrees else c) ≠
          [] := by
        simp [hts]
      simp only [sortTop, root_mk, weight_mk, subtrees_mk]
      constructor
      · rw [get_leaf_value_internal hwnew (sortKey_ne_nil weight hmapne), hglv]
        refine (get_leaf_valueList_perm (sortKey_perm weight _)).trans ?_
        rw [glvList_map_bump v w hw ts hch]
      · rw [leafWeight_internal hwnew (sortKey_ne_nil weight hmapne),
          leafWeight_internal hw0 hts,
          ((sortKey_perm weight _).map (leafWeight v)).sum_eq,
          leafWeightList_map_bump v w hw ts hch, hk]
        push_cast
        ring
  | cons s rest ih =>
    intro q w0 ts hw0 hdst hch hst
    cases hst with
    | there _ _ _ _ c0 hc0 hr0 hst0 =>
      simp only [subtrees_mk] at hc0
      have hts : ts ≠ [] := List.ne_nil_of_mem hc0
      simp only [root_mk, rootList] at hr0
      cases c0 with
      | mk rt0 w1 ts1 =>
        simp only [root_mk] at hr0
        subst hr0
        have hwf0 := reachChildren_mem hch hc0
        obtain ⟨-, -, hw1, -, hdst1, hch1⟩ := reachChild_pre_iff.mp hwf0
        have hts1 : ts1 ≠ [] := by
          have h0 := storedAt_ne_nil hst0
          simpa using h0
        have IH0 := ih (q ++ [s]) w1 ts1 hw1 hdst1 hch1 hst0
        rw [insert]
        simp only [create_node, root_mk, weight_mk, subtrees_mk, rootList]
        have hmemroot : (PRoot.pre (q ++ [s]) : PRoot α σ) ∈ get_subtree_roots ts :=
          List.mem_map.mpr ⟨_, hc0, by simp⟩
        rw [if_pos hmemroot]
        have hupd : ∀ cs : List (SPT α σ), reachChildren q cs = true →
            distinctRoots (cs.map root) = true →
            (SPT.mk (.pre (q ++ [s])) w1 ts1) ∈ cs →
            List.Perm
              (get_leaf_valueList
                (updateFirst (fun c => c.root == PRoot.pre (q ++ [s]))
                  (fun c => insert c v w rest) cs))
              (get_leaf_valueList cs) ∧
            ((updateFirst (fun c => c.root == PRoot.pre (q ++ [s]))
                (fun c => insert c v w rest) cs).map (leafWeight v)).sum =
              (cs.map (leafWeight v)).sum + w := by
          intro cs
          induction cs with
          | nil =>
            intro _ _ hmem
            cases hmem
          | cons c1 cs1 ihu =>
            intro hwfc hdst' hmem
            obtain ⟨hwf1, hwfc1⟩ := reachChildren_cons_iff.mp hwfc
            rw [List.map_cons] at hdst'
            obtain ⟨hni, hdst1'⟩ := distinctRoots_cons_iff.mp hdst'
            rw [updateFirst]
            by_cases hpred : (c1.root == (PRoot.pre (q ++ [s]) : PRoot α σ)) = true
            · rw [if_pos hpred]
              have hr1 : c1.root = .pre (q ++ [s]) := eq_of_beq hpred
              have hceq : c1 = SPT.mk (.pre (q ++ [s])) w1 ts1 := by
                rcases List.mem_cons.mp hmem with h | h
                · exact h.symm
                · exfalso
                  apply hni
                  rw [hr1]
                  exact List.mem_map.mpr ⟨_, h, by simp⟩
              rw [hceq]
              constructor
              · rw [get_leaf_valueList, get_leaf_valueList]
                exact IH0.1.append_right _
              · rw [List.map_cons, List.map_cons, List.sum_cons, List.sum_cons, IH0.2]
                ring
            · rw [if_neg hpred]
              have hmem1 : (SPT.mk (.pre (q ++ [s])) w1 ts1) ∈ cs1 := by
                rcases List.mem_cons.mp hmem with h | h
                · exfalso
                  apply hpred
                  rw [← h]
                  simp
                · exact h
              obtain ⟨hperm, hsum⟩ := ihu hwfc1 hdst1' hmem1
              constructor
              · rw [get_leaf_valueList, get_leaf_valueList]
                exact hperm.append_left _
              · rw [List.map_cons, List.map_cons, List.sum_cons, List.sum_cons, hsum]
                ring
        obtain ⟨hP, hS⟩ := hupd ts hch hdst hc0
        have hwnew : (0:ℚ) < w0 + w := by linarith
        have hulen : updateFirst (fun c => c.root == (PRoot.pre (q ++ [s]) : PRoot α σ))
            (fun c => insert c v w rest) ts ≠ [] := by
          intro h0
          have hl := updateFirst_length
            (fun c => c.root == (PRoot.pre (q ++ [s]) : PRoot α σ))
            (fun c => insert c v w rest) ts
          rw [h0] at hl
          exact hts (List.eq_nil_of_length_eq_zero hl.symm)
        simp only [sortTop, root_mk, weight_mk, subtrees_mk]
        constructor
        · rw [get_leaf_value_internal hwnew (sortKey_ne_nil weight hulen),
            get_leaf_value_internal hw0 hts]
          exact (get_leaf_valueList_perm (sortKey_perm weight _)).trans hP
        · rw [leafWeight_internal hwnew (sortKey_ne_nil weight hulen),
            leafWeight_internal hw0 hts,
            ((sortKey_perm weight _).map (leafWeight v)).sum_eq, hS]

end SPT

namespace CNode

variable {α σ : Type} [DecidableEq α] [DecidableEq σ]

/-- Induction over a compressed node with the inductive hypothesis
available for every member of the child list. -/
theorem cmemInduction {P : CNode α σ → Prop}
    (h : ∀ f w cs, (∀ c ∈ cs, P c) → P (.node f w cs))
    (hl : ∀ v w, P (.leaf v w)) : ∀ t, P t
  | .leaf v w => hl v w
  | .node f w cs => h f w cs fun c hc => cmemInduction h hl c
termination_by t => sizeOf t
decreasing_by
  have h1 := List.sizeOf_lt_of_mem hc
  simp at *
  omega

theorem invN_node_iff {f : List σ} {w : ℚ} {cs : List (CNode α σ)} :
    invN (.node f w cs) = true ↔
      f ≠ [] ∧ cs ≠ [] ∧ invHere cs = true ∧ invL cs = true := by
  simp [invN, List.isEmpty_iff, List.isEmpty_eq_false, and_assoc]

theorem invL_iff_forall : ∀ {cs : List (CNode α σ)},
    invL cs = true ↔ ∀ c ∈ cs, invN c = true := by
  intro cs
  induction cs with
  | nil => simp [invL]
  | cons c cs ih => simp [invL, Bool.and_eq_true, ih]

theorem invHere_of_ne_one {cs : List (CNode α σ)} (h : cs.length ≠ 1) :
    invHere cs = true := by
  match cs with
  | [] => rfl
  | [c] => simp at h
  | c1 :: c2 :: cs => rfl

theorem invHere_perm {cs cs' : List (CNode α σ)} (h : List.Perm cs cs')
    (hi : invHere cs = true) : invHere cs' = true := by
  by_cases hl : cs'.length = 1
  · match cs', hl with
    | [c'], _ =>
      have hcs : cs = [c'] := List.perm_singleton.mp h
      subst hcs
      exact hi
  · exact invHere_of_ne_one hl

theorem invL_perm {cs cs' : List (CNode α σ)} (h : List.Perm cs cs')
    (hi : invL cs = true) : invL cs' = true := by
  rw [invL_iff_forall] at hi ⊢
  exact fun c hc => hi c (h.symm.subset hc)

theorem invL_append {l1 l2 : List (CNode α σ)} :
    invL (l1 ++ l2) = true ↔ invL l1 = true ∧ invL l2 = true := by
  rw [invL_iff_forall, invL_iff_forall, invL_iff_forall]
  constructor
  · exact fun h => ⟨fun c hc => h c (List.mem_append_left _ hc),
      fun c hc => h c (List.mem_append_right _ hc)⟩
  · intro ⟨h1, h2⟩ c hc
    rcases List.mem_append.mp hc with hc | hc
    · exact h1 c hc
    · exact h2 c hc

theorem lcp_prefix_left : ∀ p f : List σ, lcp p f <+: p := by
  intro p
  induction p with
  | nil => intro f; exact List.nil_prefix
  | cons a as ih =>
    intro f
    match f with
    | [] => exact List.nil_prefix
    | b :: bs =>
      rw [lcp]
      split
      · next hab =>
        subst hab
        exact List.cons_prefix_cons.mpr ⟨rfl, ih bs⟩
      · exact List.nil_prefix

theorem lcp_prefix_right : ∀ p f : List σ, lcp p f <+: f := by
  intro p
  induction p with
  | nil => intro f; exact List.nil_prefix
  | cons a as ih =>
    intro f
    match f with
    | [] => exact List.nil_prefix
    | b :: bs =>
      rw [lcp]
      split
      · next hab =>
        subst hab
        exact List.cons_prefix_cons.mpr ⟨rfl, ih bs⟩
      · exact List.nil_prefix

theorem recompute_invN {f : List σ} {cs : List (CNode α σ)} (hf : f ≠ [])
    (hcs : cs ≠ []) (hih : invHere cs = true) (hil : invL cs = true) :
    invN (recompute f cs) = true := by
  rw [recompute]
  exact invN_node_iff.mpr ⟨hf, sortKey_ne_nil cweight hcs,
    invHere_perm (sortKey_perm cweight cs).symm hih,
    invL_perm (sortKey_perm cweight cs).symm hil⟩

theorem hasLeafV_ne_nil {v : α} {cs : List (CNode α σ)}
    (h : hasLeafV v cs = true) : cs ≠ [] := by
  intro h0
  subst h0
  exact Bool.false_ne_true h

theorem insLeaf_ne_nil (v : α) (w : ℚ) (cs : List (CNode α σ)) :
    insLeaf v w cs ≠ [] := by
  rw [insLeaf]
  split
  · next hb =>
    intro h0
    have := congrArg List.length h0
    simp at this
    exact hasLeafV_ne_nil hb this
  · simp

theorem insLeaf_length (v : α) (w : ℚ) (cs : List (CNode α σ)) :
    (insLeaf v w cs).length = cs.length ∨
      (insLeaf v w cs).length = cs.length + 1 := by
  rw [insLeaf]
  split
  · left
    exact List.length_map _ _
  · right
    simp

theorem invL_insLeaf {v : α} {w : ℚ} {cs : List (CNode α σ)}
    (h : invL cs = true) : invL (insLeaf v w cs) = true := by
  rw [insLeaf]
  split
  · rw [invL_iff_forall]
    intro c' hc'
    obtain ⟨c, hc, rfl⟩ := List.mem_map.mp hc'
    cases c with
    | leaf v0 w0 =>
      dsimp only
      split
      · rfl
      · rfl
    | node f1 w1 cs1 => exact invL_iff_forall.mp h _ hc
  · exact invL_append.mpr ⟨h, rfl⟩

theorem invHere_insLeaf {v : α} {w : ℚ} {cs : List (CNode α σ)}
    (h : invHere cs = true) : invHere (insLeaf v w cs) = true := by
  rw [insLeaf]
  split
  · match cs, h with
    | [], _ => rfl
    | [c], h =>
      match c, h with
      | .leaf v0 w0, _ =>
        dsimp only [List.map]
        split
        · rfl
        · rfl
    | c1 :: c2 :: cs, _ =>
      exact invHere_of_ne_one (by simp)
  · match cs with
    | [] => rfl
    | c1 :: cs => exact invHere_of_ne_one (by simp)

theorem cinsChildren_ne_nil (v : α) (w : ℚ) (p : List σ) :
    ∀ cs : List (CNode α σ), cinsChildren v w p cs ≠ [] := by
  intro cs
  cases cs with
  | nil => simp [cinsChildren]
  | cons c cs =>
    cases c with
    | leaf v0 w0 => simp [cinsChildren]
    | node f1 w1 cs1 =>
      rw [cinsChildren]
      split
      · exact List.cons_ne_nil _ _
      · split
        · exact List.cons_ne_nil _ _
        · exact List.cons_ne_nil _ _

theorem cinsChildren_length (v : α) (w : ℚ) (p : List σ) :
    ∀ cs : List (CNode α σ),
      (cinsChildren v w p cs).length = cs.length ∨
        (cinsChildren v w p cs).length = cs.length + 1 := by
  intro cs
  induction cs with
  | nil => right; rfl
  | cons c cs ih =>
    cases c with
    | leaf v0 w0 =>
      rw [cinsChildren]
      rcases ih with h | h
      · left
        simp [h]
      · right
        simp [h]
    | node f1 w1 cs1 =>
      rw [cinsChildren]
      split
      · rcases ih with h | h
        · left
          simp [h]
        · right
          simp [h]
      · split
        · left
          simp
        · left
          simp

theorem splitNode_invN {v : α} {w : ℚ} {p f1 : List σ} {w1 : ℚ}
    {cs1 : List (CNode α σ)} (hlcp : lcp p f1 ≠ []) (hnp : ¬ f1 <+: p)
    (hinv : invN (.node f1 w1 cs1) = true) :
    invN (splitNode v w p f1 w1 cs1) = true := by
  obtain ⟨hf1, hcs1, hih1, hil1⟩ := invN_node_iff.mp hinv
  have hlt : (lcp p f1).length < f1.length := by
    rcases Nat.lt_or_ge (lcp p f1).length f1.length with h | h
    · exact h
    · exfalso
      have heq : lcp p f1 = f1 :=
        (lcp_prefix_right p f1).eq_of_length
          (Nat.le_antisymm (lcp_prefix_right p f1).length_le h)
      exact hnp (heq ▸ lcp_prefix_left p f1)
  have htrunc : f1.drop (lcp p f1).length ≠ [] := by
    intro h0
    have := congrArg List.length h0
    simp at this
    omega
  have hold : invN (CNode.node (f1.drop (lcp p f1).length) w1 cs1) = true :=
    invN_node_iff.mpr ⟨htrunc, hcs1, hih1, hil1⟩
  rw [splitNode]
  split
  · refine recompute_invN hlcp (List.cons_ne_nil _ _)
      (invHere_of_ne_one (by simp)) ?_
    rw [invL, hold, invL, invL]
    rfl
  · next hsfx =>
    refine recompute_invN hlcp (List.cons_ne_nil _ _)
      (invHere_of_ne_one (by simp)) ?_
    rw [invL, hold, invL]
    have hbr : invN (CNode.node (p.drop (lcp p f1).length) w
        [CNode.leaf v w]) = true :=
      invN_node_iff.mpr ⟨hsfx, List.cons_ne_nil _ _, rfl, rfl⟩
    rw [hbr, invL]
    rfl

/-- Compressed insertion preserves the node-model invariant below any
well-formed non-root node. -/
theorem cinsert_invN (v : α) (w : ℚ) :
    ∀ n : CNode α σ, invN n = true → ∀ p, invN (cinsert n v w p) = true := by
  intro n
  induction n using cmemInduction with
  | hl v0 w0 =>
    intro _ p
    rw [cinsert]
    rfl
  | h f1 w1 cs1 ih =>
    intro hinv p
    obtain ⟨hf1, hcs1, hih1, hil1⟩ := invN_node_iff.mp hinv
    cases p with
    | nil =>
      rw [cinsert]
      exact recompute_invN hf1 (insLeaf_ne_nil v w cs1) (invHere_insLeaf hih1)
        (invL_insLeaf hil1)
    | cons s rest =>
      rw [cinsert]
      have hhere : invHere (cinsChildren v w (s :: rest) cs1) = true := by
        by_cases hl : (cinsChildren v w (s :: rest) cs1).length = 1
        · rcases cinsChildren_length v w (s :: rest) cs1 with h1 | h1
          · have hone : cs1.length = 1 := by omega
            obtain ⟨c, rfl⟩ := List.length_eq_one.mp hone
            cases c with
            | leaf v0 w0 =>
              rw [cinsChildren, cinsChildren] at hl
              simp at hl
            | node f2 w2 cs2 =>
              simp [invHere, isLeafC] at hih1
          · exact absurd (List.length_eq_zero.mp (by omega)) hcs1
        · exact invHere_of_ne_one hl
      have hlst : ∀ cs : List (CNode α σ),
          (∀ c ∈ cs, invN c = true → ∀ q, invN (cinsert c v w q) = true) →
          invL cs = true → invL (cinsChildren v w (s :: rest) cs) = true := by
        intro cs
        induction cs with
        | nil =>
          intro _ _
          have hn : invN (CNode.node (s :: rest) w [CNode.leaf v w]) = true :=
            invN_node_iff.mpr ⟨List.cons_ne_nil _ _, List.cons_ne_nil _ _, rfl, rfl⟩
          rw [cinsChildren, invL, hn, invL]
          rfl
        | cons c cs ihc =>
          intro hmemIH hil
          rw [invL, Bool.and_eq_true] at hil
          obtain ⟨hc1, hcs'⟩ := hil
          cases c with
          | leaf v0 w0 =>
            rw [cinsChildren, invL,
              ihc (fun d hd => hmemIH d (List.mem_cons_of_mem _ hd)) hcs']
            rfl
          | node f2 w2 cs2 =>
            rw [cinsChildren]
            split
            · rw [invL, hc1,
                ihc (fun d hd => hmemIH d (List.mem_cons_of_mem _ hd)) hcs']
              rfl
            · next hlcp =>
              split
              · next hpre =>
                rw [invL,
                  hmemIH _ (List.mem_cons_self _ _) hc1 ((s :: rest).drop f2.length),
                  hcs']
                rfl
              · next hnpre =>
                rw [invL, splitNode_invN hlcp hnpre hc1, hcs']
                rfl
      exact recompute_invN hf1 (cinsChildren_ne_nil v w (s :: rest) cs1) hhere
        (hlst cs1 ih hil1)

/-- Compressed insertion preserves the root invariant. -/
theorem cinsert_invT (v : α) (w : ℚ) (t : CNode α σ) (h : invT t = true)
    (p : List σ) : invT (cinsert t v w p) = true := by
  cases t with
  | leaf v0 w0 =>
    rw [invT] at h
    exact absurd h (Bool.false_ne_true)
  | node f w0 cs =>
    rw [invT, Bool.and_eq_true, List.isEmpty_iff] at h
    obtain ⟨rfl, hil⟩ := h
    cases p with
    | nil =>
      rw [cinsert, recompute, invT, Bool.and_eq_true]
      exact ⟨rfl, invL_perm (sortKey_perm cweight _).symm (invL_insLeaf hil)⟩
    | cons s rest =>
      rw [cinsert, recompute, invT, Bool.and_eq_true]
      refine ⟨rfl, invL_perm (sortKey_perm cweight _).symm ?_⟩
      have hlst : ∀ cs' : List (CNode α σ), invL cs' = true →
          invL (cinsChildren v w (s :: rest) cs') = true := by
        intro cs'
        induction cs' with
        | nil =>
          intro _
          have hn : invN (CNode.node (s :: rest) w [CNode.leaf v w]) = true :=
            invN_node_iff.mpr ⟨List.cons_ne_nil _ _, List.cons_ne_nil _ _, rfl, rfl⟩
          rw [cinsChildren, invL, hn, invL]
          rfl
        | cons c cs' ihc =>
          intro hil'
          rw [invL, Bool.and_eq_true] at hil'
          obtain ⟨hc1, hcs'⟩ := hil'
          cases c with
          | leaf v0 w0 =>
            rw [cinsChildren, invL, ihc hcs']
            rfl
          | node f2 w2 cs2 =>
            rw [cinsChildren]
            split
            · rw [invL, hc1, ihc hcs']
              rfl
            · next hlcp =>
              split
              · next hpre =>
                rw [invL, cinsert_invN v w _ hc1 ((s :: rest).drop f2.length), hcs']
                rfl
              · next hnpre =>
                rw [invL, splitNode_invN hlcp hnpre hc1, hcs']
                rfl
      exact hlst cs hil

/-- The merge-on-single-child repair returns an invariant-respecting
replacement list. -/
theorem mergeFix_invL {f1 : List σ} (hf1 : f1 ≠ []) :
    ∀ {cs : List (CNode α σ)}, invL cs = true → invL (mergeFix f1 cs) = true := by
  intro cs hil
  cases cs with
  | nil => rfl
  | cons c1 rest =>
    cases rest with
    | cons c2 cs' =>
      rw [mergeFix]
      have hn : invN (CNode.node f1 (csum (c1 :: c2 :: cs'))
          (c1 :: c2 :: cs')) = true :=
        invN_node_iff.mpr ⟨hf1, List.cons_ne_nil _ _,
          invHere_of_ne_one (by simp), hil⟩
      rw [invL, hn, invL]
      rfl
    | nil =>
      cases c1 with
      | node f2 w2 cs2 =>
        rw [invL, Bool.and_eq_true] at hil
        obtain ⟨hf2, hcs2, hih2, hil2⟩ := invN_node_iff.mp hil.1
        rw [mergeFix]
        have hn : invN (CNode.node (f1 ++ f2) w2 cs2) = true :=
          invN_node_iff.mpr ⟨by simp [hf1], hcs2, hih2, hil2⟩
        rw [invL, hn, invL]
        rfl
      | leaf v0 w0 =>
        rw [mergeFix]
        have hn : invN (CNode.node f1 (csum [(CNode.leaf v0 w0 : CNode α σ)])
            [CNode.leaf v0 w0]) = true :=
          invN_node_iff.mpr ⟨hf1, List.cons_ne_nil _ _, rfl, rfl⟩
        rw [invL, hn, invL]
        rfl

/-- Compressed removal preserves the node-model invariant below any
well-formed non-root node. -/
theorem cremN_invL : ∀ c : CNode α σ, invN c = true → ∀ p,
    invL (cremN c p) = true := by
  intro c
  induction c using cmemInduction with
  | hl v0 w0 =>
    intro _ p
    rfl
  | h f1 w1 cs1 ih =>
    intro hinv p
    obtain ⟨hf1, hcs1, hih1, hil1⟩ := invN_node_iff.mp hinv
    rw [cremN]
    split
    · rfl
    · split
      · refine mergeFix_invL hf1 ?_
        have hlst : ∀ cs : List (CNode α σ),
            (∀ c ∈ cs, invN c = true → ∀ q, invL (cremN c q) = true) →
            invL cs = true → ∀ q, invL (cremChildren cs q) = true := by
          intro cs
          induction cs with
          | nil =>
            intro _ _ q
            rfl
          | cons c cs ihc =>
            intro hmemIH hil q
            rw [invL, Bool.and_eq_true] at hil
            rw [cremChildren]
            exact invL_append.mpr ⟨hmemIH c (List.mem_cons_self _ _) hil.1 q,
              ihc (fun d hd => hmemIH d (List.mem_cons_of_mem _ hd)) hil.2 q⟩
        exact hlst cs1 ih hil1 _
      · rw [invL, invN_node_iff.mpr ⟨hf1, hcs1, hih1, hil1⟩, invL]
        rfl

/-- `cremN_invL` over a child list. -/
theorem cremChildren_invL : ∀ cs : List (CNode α σ), invL cs = true →
    ∀ p, invL (cremChildren cs p) = true := by
  intro cs
  induction cs with
  | nil =>
    intro _ p
    rfl
  | cons c cs ihc =>
    intro hil p
    rw [invL, Bool.and_eq_true] at hil
    rw [cremChildren]
    exact invL_append.mpr ⟨cremN_invL c hil.1 p, ihc hil.2 p⟩

/-- Compressed removal preserves the root invariant. -/
theorem cremoveT_invT (t : CNode α σ) (h : invT t = true) (p : List σ) :
    invT (cremoveT t p) = true := by
  cases t with
  | leaf v0 w0 =>
    rw [invT] at h
    exact absurd h Bool.false_ne_true
  | node f w0 cs =>
    rw [invT, Bool.and_eq_true, List.isEmpty_iff] at h
    obtain ⟨rfl, hil⟩ := h
    cases p with
    | nil => rfl
    | cons s rest =>
      rw [cremoveT, invT, Bool.and_eq_true]
      exact ⟨rfl, cremChildren_invL cs hil (s :: rest)⟩

/-- Every reachable compressed tree satisfies the node-model
invariant. -/
theorem creach_invT : ∀ {t : CNode α σ}, CReach t → invT t = true := by
  intro t h
  induction h with
  | empty => rfl
  | ins t v w p h hw ih => exact cinsert_invT v w t ih p
  | rem t p h ih => exact cremoveT_invT t ih p

/-- The node-model invariant implies the amended single-child condition
below a node. -/
theorem invN_goodN : ∀ c : CNode α σ, invN c = true → goodN c = true := by
  intro c
  induction c using cmemInduction with
  | hl v0 w0 =>
    intro _
    rfl
  | h f w cs ih =>
    intro hinv
    obtain ⟨-, -, hih, hil⟩ := invN_node_iff.mp hinv
    rw [goodN, Bool.and_eq_true]
    refine ⟨hih, ?_⟩
    have hlst : ∀ cs' : List (CNode α σ),
        (∀ c ∈ cs', invN c = true → goodN c = true) →
        invL cs' = true → goodL cs' = true := by
      intro cs'
      induction cs' with
      | nil =>
        intro _ _
        rfl
      | cons c cs' ihc =>
        intro hmemIH hil'
        rw [invL, Bool.and_eq_true] at hil'
        rw [goodL, Bool.and_eq_true]
        exact ⟨hmemIH c (List.mem_cons_self _ _) hil'.1,
          ihc (fun d hd => hmemIH d (List.mem_cons_of_mem _ hd)) hil'.2⟩
    exact hlst cs ih hil

/-- `invN_goodN` over a child list. -/
theorem invL_goodL : ∀ cs : List (CNode α σ), invL cs = true →
    goodL cs = true := by
  intro cs
  induction cs with
  | nil =>
    intro _
    rfl
  | cons c cs ihc =>
    intro hil
    rw [invL, Bool.and_eq_true] at hil
    rw [goodL, Bool.and_eq_true]
    exact ⟨invN_goodN c hil.1, ihc hil.2⟩

/-- The node-model invariant at the root implies the amended
single-child condition over the whole tree. -/
theorem invT_goodT (t : CNode α σ) (h : invT t = true) : goodT t = true := by
  cases t with
  | leaf v0 w0 => rfl
  | node f w cs =>
    rw [invT, Bool.and_eq_true] at h
    rw [goodT]
    exact invL_goodL cs h.2


end CNode


/-- C1: the weight invariant is violated by the code.  After the
precondition-respecting call sequence `insert('cat',2,[c,a,t])`;
`insert('cb',3,[c,b])`; `insert('dog',4,[d,o,g])`; `remove(['c','a'])`,
the root is non-empty and non-leaf, its stored weight is still `9`, but
its subtrees' weights sum to `7`: `remove` never decrements an ancestor's
weight when a child is only partially emptied.  This contradicts the
class docstring's representation invariant (weight of a non-empty
non-leaf node is the total weight of its leaves) and spec §8. -/
theorem claim_C1_weight_invariant_fails :
    is_empty bugTree = false ∧ is_leaf bugTree = false ∧
    bugTree.weight = 9 ∧ (bugTree.subtrees.map weight).sum = 7 ∧
    bugTree.weight ≠ (bugTree.subtrees.map weight).sum := by decide

/-- C5: the sortedness invariant is violated by the code.  After the same
reachable sequence as for C1, the root's subtree list carries weights
`[3, 4]`, which is not non-increasing: `remove` re-sorts nothing, and a
child whose weight shrank without becoming empty stays in front of a now
heavier sibling.  This contradicts the class docstring's representation
invariant (`self.subtrees` is sorted in non-increasing order of weight)
and spec §8. -/
theorem claim_C5_sorted_invariant_fails :
    bugTree.subtrees.map weight = [3, 4] ∧
    ¬ (bugTree.subtrees.map weight).Sorted (· ≥ ·) := by
  constructor
  · decide
  · rw [show bugTree.subtrees.map weight = [3, 4] from by decide]
    intro h
    have := List.rel_of_sorted_cons h 4 (by simp)
    norm_num at this

/-- C6: Scenario C holds.  After inserting `('cat',2,[c,a,t])`,
`('car',3,[c,a,r])`, `('dog',4,[d,o,g])` and calling `remove(['c','a'])`,
both values whose prefix sequences begin with `['c','a']` are gone (the
only stored value left is `'dog'`), the size is `1`, the root weight is
`4`, and the root has exactly one child, with fragment `['d']`. -/
theorem claim_C6_remove_scenario :
    treeCRemoved.size = 1 ∧ treeCRemoved.weight = 4 ∧
    treeCRemoved.subtrees.map root = [PRoot.pre ['d']] ∧
    get_leaf_value treeCRemoved = [PRoot.val "dog"] := by decide

/-- C8: calling `insert` with `weight ≤ 0` violates the docstring
precondition `weight > 0`, which the `@check_contracts` decorator checks
before the body runs; the call fails with the error the spec names
`InvalidWeight` and the tree is returned unchanged — no node is
mutated. -/
theorem claim_C8_invalid_weight {α σ : Type} [DecidableEq α] [DecidableEq σ]
    (t : SPT α σ) (v : α) (w : ℚ) (p : List σ) (h : w ≤ 0) :
    t.insertChecked v w p = (some ACSError.invalidWeight, t) := by
  unfold SPT.insertChecked
  rw [if_neg (not_lt.mpr h)]

/-- Witness for C8 at a concrete input: weight `0` on the empty tree. -/
theorem claim_C8_witness :
    (0 : ℚ) ≤ 0 ∧
      (SPT.empty : SPT String Char).insertChecked "cat" 0 ['c'] =
        (some ACSError.invalidWeight, SPT.empty) :=
  ⟨le_refl 0, claim_C8_invalid_weight SPT.empty "cat" 0 ['c'] (le_refl 0)⟩

/-- C10: `autocomplete` mutates nothing: for every tree, prefix and limit
the tree after the call is identical — every node's root, weight and
subtree list are untouched, recursively. -/
theorem claim_C10_autocomplete_pure {α σ : Type} [DecidableEq α] [DecidableEq σ]
    (t : SPT α σ) (p : List σ) (l : Option Nat) :
    (autocompleteM t p l).2 = t := by
  induction t using SPT.memInduction with
  | h r w ts ih =>
    have hlist : ∀ cs : List (SPT α σ), (∀ c ∈ cs, (autocompleteM c p l).2 = c) →
        (autocompleteList cs p l).2 = cs := by
      intro cs hcs
      induction cs with
      | nil => rfl
      | cons c cs ihc =>
        simp only [autocompleteList]
        rw [hcs c (List.mem_cons_self c cs),
          ihc fun d hd => hcs d (List.mem_cons_of_mem c hd)]
    cases l with
    | none =>
      rw [autocompleteM]
      split
      · rfl
      · simp only
        rw [hlist ts ih]
    | some k =>
      rw [autocompleteM]
      split
      · rfl
      · simp only
        rw [hlist ts ih]

/-- C3, refuted on a reachable input.  `phantomTree` is reachable by the
precondition-respecting sequence `insert('cat',2,[c,a,t])`,
`insert('car',3,[c,a,r])`, `insert('cb',4,[c,b])`, `remove([c,a,t])`,
`remove([c,a])`, `remove([c,b])`.  It stores no value at all: its only
recorded entry is the valueless remnant node `(.pre ['c'], 2)` and the
spec-side matching pairs for the prefix `['c']` are empty.  Yet
`autocomplete(['c'], None)` returns `[(['c'], 2.0)]` — a pair whose
first component is a prefix fragment, not any inserted value — so the
code does not return "all (value, weight) pairs of leaves matching the
prefix".  The Scenario B instance of the claim does hold. -/
theorem claim_C3_autocomplete_phantom :
    Reach phantomTree ∧
    entries phantomTree = [([], .pre ['c'], 2)] ∧
    matchPairs ['c'] phantomTree = [] ∧
    (autocompleteM phantomTree ['c'] none).1 = [(.pre ['c'], 2)] ∧
    (autocompleteM treeB [] none).1 =
      [(.val "dog", 4), (.val "car", 3), (.val "cat", 2)] :=
  ⟨.rem _ _ (.rem _ _ (.rem _ _ (.ins _ _ _ _ (.ins _ _ _ _ (.ins _ _ _ _ .empty
      (by norm_num)) (by norm_num)) (by norm_num)))),
    by decide, by decide, by decide, by decide⟩

/-- C4, refuted on a reachable input: on the same reachable
`phantomTree` there are zero matches for `['c']` (nothing is stored),
so the claim's "first min(limit, number of matches) leaves" is the empty
list, yet `autocomplete(['c'], 1)` returns one pair — and its first
component is a prefix fragment, not a value.  The greedy Scenario B
instance of the claim does hold. -/
theorem claim_C4_limit_phantom :
    Reach phantomTree ∧
    matchPairs ['c'] phantomTree = [] ∧
    (autocompleteM phantomTree ['c'] (some 1)).1 = [(.pre ['c'], 2)] ∧
    (autocompleteM treeC [] (some 1)).1 = [(.val "car", 3)] :=
  ⟨.rem _ _ (.rem _ _ (.rem _ _ (.ins _ _ _ _ (.ins _ _ _ _ (.ins _ _ _ _ .empty
      (by norm_num)) (by norm_num)) (by norm_num)))),
    by decide, by decide, by decide⟩

/-- C9, refuted on a reachable input: `phantomTree` stores no value (its
only entry is the valueless remnant, recorded at path `[]`, so in
particular no stored value's prefix sequence begins with `['c']`), yet
`remove(['c'])` is not a no-op — it deletes the remnant child and drops
the root weight from `9` to `7`. -/
theorem claim_C9_remove_phantom_not_noop :
    Reach phantomTree ∧
    entries phantomTree = [([], .pre ['c'], 2)] ∧
    (entries phantomTree).filter (fun e => decide (['c'] <+: e.1)) = [] ∧
    phantomTree.weight = 9 ∧ phantomTree.subtrees.map root = [.pre ['c']] ∧
    (phantomTree.remove ['c']).weight = 7 ∧
    (phantomTree.remove ['c']).subtrees.length = 0 :=
  ⟨.rem _ _ (.rem _ _ (.rem _ _ (.ins _ _ _ _ (.ins _ _ _ _ (.ins _ _ _ _ .empty
      (by norm_num)) (by norm_num)) (by norm_num)))),
    by decide, by decide, by decide, by decide, by decide, by decide⟩

/-- C7: for every tree reachable by precondition-respecting calls
(`Reach`, which requires only the checked precondition `weight > 0` and
so covers every reachable state), inserting a value that is already
stored under the identical prefix sequence with a positive weight leaves
the multiset of stored leaf roots unchanged — no second leaf is created
— and adds the new weight to that value's total stored weight.  In
particular (Scenario D), inserting the same value twice with the same
prefix and weights `15.0` and `6.5` makes a matching autocomplete return
that value with weight `21.5`. -/
theorem claim_C7_duplicate_insert_accumulates :
    (∀ {α σ : Type} [DecidableEq α] [DecidableEq σ]
        (t : SPT α σ) (v : α) (w : ℚ) (p : List σ), 0 < w → Reach t →
        StoredAt t p v →
        List.Perm (get_leaf_value (insert t v w p)) (get_leaf_value t) ∧
        leafWeight v (insert t v w p) = leafWeight v t + w) ∧
    (autocompleteM treeD ['a'] none).1 = [(.val "star", 43 / 2)] := by
  constructor
  · intro α σ _ _ t v w p hw hre hst
    have hinv := reach_inv hre
    cases t with
    | mk rt w0 ts =>
      obtain ⟨rfl, hsum, hdist, hch⟩ := reachInv_iff.mp hinv
      have hts : ts ≠ [] := by
        have h0 := storedAt_ne_nil hst
        simpa using h0
      have hw0 : 0 < w0 := lt_of_lt_of_le (reachChildren_sum_pos hch hts) hsum
      exact insert_dup_aux hw p [] w0 ts hw0 hdist hch hst
  · decide

/-- Witness for C7 at a concrete input: the universal statement applied
to the first Scenario D tree (reachable by one insert) and the second
insertion. -/
theorem claim_C7_witness :
    List.Perm (get_leaf_value (treeD1.insert "star" (13 / 2) ['a', 's']))
      (get_leaf_value treeD1) ∧
    leafWeight "star" (treeD1.insert "star" (13 / 2) ['a', 's']) =
      leafWeight "star" treeD1 + 13 / 2 := by
  refine claim_C7_duplicate_insert_accumulates.1 treeD1 "star" (13 / 2) ['a', 's']
    (by norm_num) (.ins _ _ _ _ .empty (by norm_num)) ?_
  have e1 : treeD1 = SPT.mk (.pre []) 15
      [SPT.mk (.pre ['a']) 15 [SPT.mk (.pre ['a', 's']) 15
        [SPT.mk (.val "star") 15 []]]] := by
    rfl
  rw [e1]
  exact .there _ 'a' ['s'] "star" _ (List.mem_singleton.mpr rfl) rfl
    (.there _ 's' [] "star" _ (List.mem_singleton.mpr rfl) rfl
      (.here _ "star" _ (List.mem_singleton.mpr rfl) rfl))

/-- C2, literal reading refuted: the claim "no non-root internal node
has exactly one child" fails on a reachable compressed tree.  A single
`insert('star', 1.0, [a,s])` into the empty compressed tree (its
precondition `weight > 0` holds) creates the internal node `[a,s]`
whose only child is the value leaf — in a compressed tree a stored
value's leaf always hangs alone under the internal node owning the last
fragment of its prefix sequence, so the exception for a single leaf
child is unavoidable. -/
theorem claim_C2_counterexample_single_leaf_child :
    CNode.CReach (CNode.cinsert (CNode.node [] 0 [] : CNode String Char)
      "star" 1 ['a', 's']) ∧
    CNode.noSingleT (CNode.cinsert (CNode.node [] 0 [] : CNode String Char)
      "star" 1 ['a', 's']) = false :=
  ⟨.ins _ _ _ _ .empty one_pos, by decide⟩

/-- C2 (amended): every compressed tree reachable from empty by
precondition-respecting `insert` and `remove` calls satisfies the
amended compressed-only invariant — no non-root internal node has
exactly one child, unless that single child is a value leaf. -/
theorem claim_C2_no_single_child_amended :
    ∀ {α σ : Type} [DecidableEq α] [DecidableEq σ] (t : CNode α σ),
      CNode.CReach t → CNode.goodT t = true := by
  intro α σ _ _ t h
  exact CNode.invT_goodT t (CNode.creach_invT h)

/-- Witness for C2 at a concrete input: the amended theorem applied to
the one-insertion compressed tree of the counterexample. -/
theorem claim_C2_witness :
    CNode.goodT (CNode.cinsert (CNode.node [] 0 [] : CNode String Char)
      "star" 1 ['a', 's']) = true :=
  claim_C2_no_single_child_amended _ (.ins _ _ _ _ .empty one_pos)

end ACS
